import Mathlib

/-!
Verification of the puzzle analysis and generation engine of Zero Rush v2
(arithmetic arrangement puzzles).  The definitions below are a shallow
embedding of the TypeScript modules `lib/game/evaluate`, `lib/game/signature`,
`lib/game/generate` and `lib/game/constants`:

* JS strings are embedded as `List Char`; the single-character global
  `String.replace` calls, `split(',')`, `join(',')` and `trim()` are embedded
  as the corresponding list functions.
* JS numbers are embedded as exact rationals (`ℚ`).  The engine's
  epsilon-rounding (`Math.round((x + Number.EPSILON) * 100) / 100`) exists
  only to absorb binary floating-point error, which has no analogue in `ℚ`;
  it is nevertheless embedded exactly, with `Number.EPSILON = 2^-52`.
  The non-finite results JS produces on division by zero (`Infinity`/`NaN`,
  which `Number.isInteger` rejects and which are absorbing for the
  left-to-right evaluation since the running total is always the left
  operand) are embedded as `Option ℚ` with `none` absorbing.
* `Math.floor(Math.random() * k)`, which draws an arbitrary element of
  `{0, …, k-1}`, is embedded by drawing `r t % k` from an arbitrary
  random source `r : Nat → Nat` at an explicit time counter `t` that is
  threaded through every consumer; quantifying over `r` quantifies over
  every possible sequence of in-range draws.
* `Array.prototype.sort` with the `compareCards` comparator is embedded as
  `List.insertionSort`: JS guarantees a stable sort, and two cards that
  compare equal under `compareCards` are identical, so every comparator
  sort produces the same output list.
* The JS `Map` keyed by numbers (insertion ordered) is embedded as an
  association list to which new keys are appended on first insertion.
* Functions that `throw` are embedded with `Except String`.
-/

namespace ZeroRush

/-! ### Characters, digits and JS-style numeric parsing -/

/-- JS whitespace characters relevant to `trim()`/`parseInt` for the inputs of
this codec (ASCII whitespace). -/
def isWS (c : Char) : Bool :=
  c = ' ' || c = '\t' || c = '\n' || c = '\r' || c = '\x0b' || c = '\x0c'

/-- Digit test, `'0'` to `'9'`. -/
def isDigitChar (c : Char) : Bool :=
  48 ≤ c.toNat && c.toNat ≤ 57

/-- The character of a single decimal digit. -/
def digitChar (d : Nat) : Char :=
  Char.ofNat (48 + d)

/-- Decimal digits of a natural number, most significant first; fuel-driven
so that it is structurally recursive (`fuel > n` suffices). -/
def natToCharsAux : Nat → Nat → List Char
  | 0, _ => []
  | fuel + 1, n =>
    if n < 10 then [digitChar n]
    else natToCharsAux fuel (n / 10) ++ [digitChar (n % 10)]

/-- Decimal representation of a natural number (JS `String(n)`). -/
def natToChars (n : Nat) : List Char :=
  natToCharsAux (n + 1) n

/-- Decimal representation of an integer (JS `String(v)` for an integer). -/
def intToChars (v : Int) : List Char :=
  if v < 0 then '-' :: natToChars (-v).toNat else natToChars v.toNat

/-- Value of a list of digit characters (most significant first). -/
def digitsVal (s : List Char) : Nat :=
  s.foldl (fun acc c => 10 * acc + (c.toNat - 48)) 0

/-- Value of the longest digit prefix, `none` when there is no digit
(the `NaN` case of `parseInt`). -/
def digitsPrefixVal (s : List Char) : Option Nat :=
  let ds := s.takeWhile isDigitChar
  if ds.isEmpty then none else some (digitsVal ds)

/-- JS `parseInt(s, 10)`: skip whitespace, optional sign, longest digit
prefix (trailing garbage ignored); `none` embeds `NaN`. -/
def jsParseInt (s : List Char) : Option Int :=
  match s.dropWhile isWS with
  | [] => none
  | c :: rest =>
    if c = '-' then (digitsPrefixVal rest).map (fun n => -(n : Int))
    else if c = '+' then (digitsPrefixVal rest).map (fun n => (n : Int))
    else (digitsPrefixVal (c :: rest)).map (fun n => (n : Int))

/-- JS `String.prototype.trim`. -/
def jsTrim (s : List Char) : List Char :=
  ((s.dropWhile isWS).reverse.dropWhile isWS).reverse

/-- JS `String.prototype.split(',')`. -/
def splitComma : List Char → List (List Char)
  | [] => [[]]
  | c :: cs =>
    if c = ',' then [] :: splitComma cs
    else
      match splitComma cs with
      | t :: ts => (c :: t) :: ts
      | [] => [[c]]

/-- JS `Array.prototype.join(',')`. -/
def joinComma : List (List Char) → List Char
  | [] => []
  | [t] => t
  | t :: ts => t ++ ',' :: joinComma ts

/-- JS `String.prototype.replace(/pat/g, repl)` for a single-character
pattern and replacement. -/
def replaceChar (pat repl : Char) (s : List Char) : List Char :=
  s.map fun c => if c = pat then repl else c

/-! ### Cards (`lib/types/game` / `lib/game/evaluate`) -/

/-- The four card operators `+`, `-`, `*`, `÷`. -/
inductive Operator where
  | plus
  | minus
  | mul
  | div
deriving DecidableEq

/-- A card: an operator together with an integer value. -/
structure Card where
  operator : Operator
  value : Int
deriving DecidableEq

/-- The character of an operator. -/
def opChar : Operator → Char
  | .plus => '+'
  | .minus => '-'
  | .mul => '*'
  | .div => '÷'

/-- Reading an operator character (`isValidOperator` is `(parseOp c).isSome`). -/
def parseOp (c : Char) : Option Operator :=
  if c = '+' then some .plus
  else if c = '-' then some .minus
  else if c = '*' then some .mul
  else if c = '÷' then some .div
  else none

/-- `isValidOperator` from `lib/game/evaluate`. -/
def isValidOperator (c : Char) : Bool :=
  (parseOp c).isSome

/-- `cardToString` from `lib/game/evaluate`: operator character followed by
the decimal value. -/
def cardToString (c : Card) : List Char :=
  opChar c.operator :: intToChars c.value

/-- `parseCard` from `lib/game/evaluate`: first character must be a valid
operator, the remainder is read with `parseInt` and must not be `NaN`;
otherwise the function throws. -/
def parseCard (s : List Char) : Except String Card :=
  match s with
  | [] => .error "Invalid operator"
  | c :: rest =>
    match parseOp c with
    | none => .error "Invalid operator"
    | some op =>
      match jsParseInt rest with
      | none => .error "Invalid card value"
      | some v => .ok ⟨op, v⟩

/-! ### Signature codec (`lib/game/signature`, `lib/game/constants`) -/

/-- `OPERATOR_ORDER` from `lib/game/constants`. -/
def OPERATOR_ORDER : Operator → Int
  | .plus => 0
  | .minus => 1
  | .mul => 2
  | .div => 3

/-- `compareCards` from `lib/game/signature`: by operator rank, then by
numeric value. -/
def compareCards (a b : Card) : Int :=
  if OPERATOR_ORDER a.operator ≠ OPERATOR_ORDER b.operator then
    OPERATOR_ORDER a.operator - OPERATOR_ORDER b.operator
  else
    a.value - b.value

/-- The sort relation induced by the `compareCards` comparator. -/
def cardLE (a b : Card) : Prop :=
  compareCards a b ≤ 0

instance : DecidableRel cardLE := fun a b => by
  unfold cardLE; infer_instance

/-- The canonical sort of a hand (JS `[...cards].sort(compareCards)`; the
comparator is antisymmetric up to equality, so the sorted list is unique). -/
def sortCards (cards : List Card) : List Card :=
  cards.insertionSort cardLE

/-- `toCanonicalSignature` from `lib/game/signature`. -/
def toCanonicalSignature (cards : List Card) : List Char :=
  joinComma ((sortCards cards).map cardToString)

/-- The token list `fromSignature` actually parses: split on commas, trim
each token, drop empty tokens. -/
def processedTokens (s : List Char) : List (List Char) :=
  ((splitComma s).map jsTrim).filter fun t => t.length > 0

/-- Parsing every token (JS `.map(parseCard)` where `parseCard` may throw). -/
def parseCardList : List (List Char) → Except String (List Card)
  | [] => .ok []
  | t :: ts => do
    let c ← parseCard t
    let cs ← parseCardList ts
    pure (c :: cs)

/-- `fromSignature` from `lib/game/signature`. -/
def fromSignature (s : List Char) : Except String (List Card) :=
  if (jsTrim s).isEmpty then .ok []
  else parseCardList (processedTokens s)

/-- `isValidSignature` from `lib/game/signature`: parses to at least one
card and re-canonicalizing reproduces the exact string. -/
def isValidSignature (s : List Char) : Bool :=
  if (jsTrim s).isEmpty then false
  else
    match fromSignature s with
    | .error _ => false
    | .ok cards => !cards.isEmpty && (s == toCanonicalSignature cards)

/-- `encodeSignatureForUrl` from `lib/game/signature`: the five sequential
global single-character replaces. -/
def encodeSignatureForUrl (s : List Char) : List Char :=
  replaceChar ',' '_'
    (replaceChar '-' 's'
      (replaceChar '+' 'a'
        (replaceChar '*' 'm'
          (replaceChar '÷' 'd' s))))

/-- `decodeSignatureFromUrl` from `lib/game/signature`. -/
def decodeSignatureFromUrl (s : List Char) : List Char :=
  replaceChar '_' ','
    (replaceChar 's' '-'
      (replaceChar 'a' '+'
        (replaceChar 'm' '*'
          (replaceChar 'd' '÷' s))))


/-! ### Arithmetic evaluator (`lib/game/evaluate`) -/

/-- `Number.isInteger` on an embedded JS number (`none` embeds the
non-finite values, which are not integers). -/
def isIntegerQ : Option ℚ → Bool
  | none => false
  | some q => q.den == 1

/-- One evaluation step: apply a card's operator to the running total.
Division by zero yields the non-finite marker `none`, as JS division of a
finite number by zero yields `Infinity`/`NaN`. -/
def applyCard (acc : ℚ) (c : Card) : Option ℚ :=
  match c.operator with
  | .plus => some (acc + (c.value : ℚ))
  | .minus => some (acc - (c.value : ℚ))
  | .mul => some (acc * (c.value : ℚ))
  | .div => if (c.value : ℚ) = 0 then none else some (acc / (c.value : ℚ))

/-- `Number.EPSILON = 2^-52`, exactly. -/
def EPSILON : ℚ := 1 / 2 ^ 52

/-- `Math.round` (half away from zero toward positive infinity). -/
def jsRound (q : ℚ) : ℚ := (⌊q + 1 / 2⌋ : ℤ)

/-- `Math.round((x + Number.EPSILON) * 100) / 100`. -/
def roundTo2 (q : ℚ) : ℚ := jsRound ((q + EPSILON) * 100) / 100

/-- `EvaluationResult` from `lib/types/game`; `answer`/`rawAnswer` are JS
numbers (with `none` for a non-finite value). -/
structure EvaluationResult where
  answer : Option ℚ
  rawAnswer : Option ℚ
  floatDetected : Bool
  arrangement : List Card

/-- The body of `evaluate`'s loop: apply the card, then stickily record a
non-integer running total (`!Number.isInteger(result)`). -/
def evalStep (st : Option ℚ × Bool) (c : Card) : Option ℚ × Bool :=
  let r := st.1.bind fun acc => applyCard acc c
  (r, st.2 || !isIntegerQ r)

/-- `evaluate` from `lib/game/evaluate`: first card's value seeds the total
(its operator is ignored), the remaining cards apply left to right, and the
final answer is epsilon-rounded to two decimals. -/
def evaluate (arrangement : List Card) : EvaluationResult :=
  match arrangement with
  | [] => { answer := some 0, rawAnswer := some 0, floatDetected := false, arrangement := [] }
  | first :: rest =>
    let st := rest.foldl evalStep (some (first.value : ℚ), false)
    { answer := st.1.map roundTo2
      rawAnswer := st.1
      floatDetected := st.2
      arrangement := arrangement }

/-- `isValidAnswer` from `lib/game/evaluate`: `answer >= 0 &&
Number.isInteger(answer)` (false on every non-finite value). -/
def isValidAnswer : Option ℚ → Bool
  | none => false
  | some q => decide (0 ≤ q) && (q.den == 1)

/-! ### Arrangement search (`lib/game/generate`) -/

/-- The JS destructuring swap `[l[i], l[j]] = [l[j], l[i]]` (the source only
ever swaps in-range indices). -/
def swap {α : Type} (l : List α) (i j : Nat) : List α :=
  match l[i]?, l[j]? with
  | some a, some b => (l.set i b).set j a
  | _, _ => l

/-- The `for` loop of `heapPermute`: iteration `i` recurses on `n - 1` and
then swaps index `i` (even `n`) or `0` (odd `n`) with `n - 1`; the mutable
`working` array is threaded as explicit state. -/
def heapLoop {α : Type} (n : Nat) (sub : List α → List (List α) × List α) :
    Nat → List α → List (List α) × List α
  | 0, w => ([], w)
  | i + 1, w =>
    let a := heapLoop n sub i w
    let b := sub a.2
    (a.1 ++ b.1, if n % 2 = 0 then swap b.2 i (n - 1) else swap b.2 0 (n - 1))

/-- `heapPermute` from `lib/game/generate` (Heap's algorithm): at `n = 1`
a snapshot of the working array is emitted. -/
def heapPermute {α : Type} : Nat → List α → List (List α) × List α
  | 0, w => ([], w)
  | 1, w => ([w], w)
  | n + 2, w => heapLoop (n + 2) (heapPermute (n + 1)) (n + 2) w

/-- `permute` from `lib/game/generate`. -/
def permute {α : Type} (arr : List α) : List (List α) :=
  (heapPermute arr.length arr).1

/-- `permutePuzzle` from `lib/game/generate`. -/
def permutePuzzle (cards : List Card) : List (List Card) :=
  permute cards

/-- A pseudorandom source: `r t` is the draw consumed by the `t`-th call to
`Math.random`; `Math.floor(Math.random() * k)` is embedded as `r t % k`. -/
def RandSource : Type := Nat → Nat

/-- The Fisher-Yates loop of `shuffle`: the counter is the current index
`i`, running from `length - 1` down to `1`. -/
def fyLoop {α : Type} (r : RandSource) : Nat → List α → Nat → List α × Nat
  | 0, w, t => (w, t)
  | i + 1, w, t => fyLoop r i (swap w (i + 1) (r t % (i + 2))) (t + 1)

/-- `shuffle` from `lib/game/generate` (Fisher-Yates on a copy). -/
def shuffle {α : Type} (r : RandSource) (l : List α) (t : Nat) : List α × Nat :=
  fyLoop r (l.length - 1) l t

/-- `EXHAUSTIVE_THRESHOLD` from `lib/game/generate`. -/
def EXHAUSTIVE_THRESHOLD : Nat := 6

/-- `SAMPLE_SIZE` from `lib/game/generate`. -/
def SAMPLE_SIZE : Nat := 5000

/-- The dedup key of one sampled ordering:
`shuffled.map(c => operator + value).join(',')`. -/
def arrangementKey (cards : List Card) : List Char :=
  joinComma (cards.map cardToString)

/-- The loop of `generateSampledPermutations`: up to `sampleSize * 2`
shuffles, stopping once `sampleSize` distinct orderings (by key) are
collected; `seen` embeds the JS `Set` of keys. -/
def sampleLoop (r : RandSource) (cards : List Card) (sampleSize : Nat) :
    Nat → List (List Card) → List (List Char) → Nat → List (List Card) × Nat
  | 0, samples, _, t => (samples, t)
  | fuel + 1, samples, seen, t =>
    if samples.length < sampleSize then
      let sh := shuffle r cards t
      let key := arrangementKey sh.1
      if key ∈ seen then sampleLoop r cards sampleSize fuel samples seen sh.2
      else sampleLoop r cards sampleSize fuel (samples ++ [sh.1]) (key :: seen) sh.2
    else (samples, t)

/-- `generateSampledPermutations` from `lib/game/generate`. -/
def generateSampledPermutations (r : RandSource) (cards : List Card)
    (sampleSize : Nat) (t : Nat) : List (List Card) × Nat :=
  sampleLoop r cards sampleSize (sampleSize * 2) [] [] t

/-! ### Puzzle analyzer (`lib/game/generate`) -/

/-- One value of the analyzer's `answerMap`. -/
structure AnswerData where
  arrangement : List Card
  count : Nat
  floatDetected : Bool
deriving DecidableEq

/-- `Target` from `lib/types/game`. -/
structure Target where
  result : ℚ
  arrangement : List Card
  permutationCount : Nat
  floatDetected : Bool
deriving DecidableEq

/-- `PuzzleResult` from `lib/types/game`. -/
structure PuzzleResult where
  hasValidAnswers : Bool
  isGood : Bool
  hasZero : Bool
  totalPermutations : Nat
  uniqueAnswers : Nat
  dusk : Target
  dawn : Target
deriving DecidableEq

/-- Insertion into the insertion-ordered `answerMap`: an existing key only
bumps its counter, a new key is appended with a representative arrangement
and count 1. -/
def insertAnswer : List (ℚ × AnswerData) → ℚ → List Card → Bool → List (ℚ × AnswerData)
  | [], q, arr, fd => [(q, ⟨arr, 1, fd⟩)]
  | (k, d) :: m, q, arr, fd =>
    if k = q then (k, { d with count := d.count + 1 }) :: m
    else (k, d) :: insertAnswer m q arr fd

/-- `answerMap.get`. -/
def lookupAnswer : List (ℚ × AnswerData) → ℚ → Option AnswerData
  | [], _ => none
  | (k, d) :: m, q => if k = q then some d else lookupAnswer m q

/-- One iteration of the evaluation loop of `generateAnswers`: record the
arrangement's answer when it is valid. -/
def analyzeStep (m : List (ℚ × AnswerData)) (arrangement : List Card) :
    List (ℚ × AnswerData) :=
  let result := evaluate arrangement
  if isValidAnswer result.answer then
    match result.answer with
    | some q => insertAnswer m q arrangement result.floatDetected
    | none => m
  else m

/-- The evaluation loop of `generateAnswers`: record every valid answer. -/
def buildAnswerMap (arrs : List (List Card)) : List (ℚ × AnswerData) :=
  arrs.foldl analyzeStep []

/-- The distinct valid answer values arising over a set of examined
arrangements (the values `generateAnswers` keys its map by). -/
def distinctValidAnswers (arrs : List (List Card)) : List (Option ℚ) :=
  ((arrs.map fun a => (evaluate a).answer).filter isValidAnswer).dedup

/-- The empty `Target` of `createInvalidResult`. -/
def emptyTarget : Target :=
  ⟨0, [], 0, false⟩

/-- `createInvalidResult` from `lib/game/generate`. -/
def createInvalidResult : PuzzleResult :=
  { hasValidAnswers := false
    isGood := false
    hasZero := false
    totalPermutations := 0
    uniqueAnswers := 0
    dusk := emptyTarget
    dawn := emptyTarget }

/-- The arrangement set `generateAnswers` examines: exhaustive permutation
for at most `EXHAUSTIVE_THRESHOLD` cards, otherwise random sampling. -/
def searchPermutations (r : RandSource) (cards : List Card) (t : Nat) :
    List (List Card) × Nat :=
  if cards.length ≤ EXHAUSTIVE_THRESHOLD then (permutePuzzle cards, t)
  else generateSampledPermutations r cards SAMPLE_SIZE t

/-- The tail of `generateAnswers` once at least two distinct valid answers
exist: sort the keys, take the extremes as Dusk and Dawn, and derive the
quality flags. -/
def validPuzzleResult (useExhaustive : Bool) (totalPermutations : Nat)
    (answerMap : List (ℚ × AnswerData)) : PuzzleResult :=
  let sortedAnswers := (answerMap.map Prod.fst).insertionSort (fun a b => a ≤ b)
  let lowestValue := sortedAnswers.headD 0
  let highestValue := sortedAnswers.getLastD 0
  let lowestData := (lookupAnswer answerMap lowestValue).getD ⟨[], 0, false⟩
  let highestData := (lookupAnswer answerMap highestValue).getD ⟨[], 0, false⟩
  { hasValidAnswers := true
    isGood := if useExhaustive then decide (highestData.count = 1) else true
    hasZero := decide (lowestValue = 0)
    totalPermutations := totalPermutations
    uniqueAnswers := answerMap.length
    dusk := ⟨lowestValue, lowestData.arrangement, lowestData.count, lowestData.floatDetected⟩
    dawn := ⟨highestValue, highestData.arrangement, highestData.count, highestData.floatDetected⟩ }

/-- `generateAnswers` from `lib/game/generate`. -/
def generateAnswers (r : RandSource) (t : Nat) (cards : List Card) :
    PuzzleResult × Nat :=
  if cards.length = 0 then (createInvalidResult, t)
  else
    let s := searchPermutations r cards t
    let answerMap := buildAnswerMap s.1
    if answerMap.length < 2 then (createInvalidResult, s.2)
    else
      (validPuzzleResult (decide (cards.length ≤ EXHAUSTIVE_THRESHOLD))
        s.1.length answerMap, s.2)

/-! ### Puzzle generator (`lib/game/generate`, `lib/game/constants`) -/

/-- A `{ min, max }` card range. -/
structure CardRange where
  min : Int
  max : Int

/-- The four per-operator ranges. -/
structure CardRanges where
  plus : CardRange
  minus : CardRange
  multiply : CardRange
  divide : CardRange

/-- `DEFAULT_CARD_RANGES` from `lib/game/constants`. -/
def DEFAULT_CARD_RANGES : CardRanges :=
  ⟨⟨1, 9⟩, ⟨1, 9⟩, ⟨2, 9⟩, ⟨2, 9⟩⟩

/-- `QUALITY_THRESHOLD` from `lib/game/constants`. -/
def QUALITY_THRESHOLD : ℚ := 5

/-- `MAX_GENERATION_ATTEMPTS` from `lib/game/constants`. -/
def MAX_GENERATION_ATTEMPTS : Nat := 100

/-- `RELAXED_QUALITY_THRESHOLD` from `lib/game/constants`. -/
def RELAXED_QUALITY_THRESHOLD : ℚ := 10

/-- `generateCardsForOperator`: the `for (value = min; value <= max; value++)`
loop, one card per integer of the range. -/
def generateCardsForOperator (operator : Operator) (range : CardRange) : List Card :=
  (List.range (range.max - range.min + 1).toNat).map
    fun k : Nat => ⟨operator, range.min + (k : Int)⟩

/-- `generateDeck` from `lib/game/generate`. -/
def generateDeck (ranges : CardRanges) : List Card :=
  generateCardsForOperator .plus ranges.plus ++
    generateCardsForOperator .minus ranges.minus ++
      generateCardsForOperator .mul ranges.multiply ++
        generateCardsForOperator .div ranges.divide

/-- The drawing loop of `generatePuzzle`: pick a uniformly random remaining
deck index and splice it out, until the count is reached or the deck is
exhausted. -/
def drawLoop (r : RandSource) : Nat → List Card → List Card → Nat → List Card × Nat
  | 0, _, hand, t => (hand, t)
  | count + 1, deck, hand, t =>
    if deck.length = 0 then (hand, t)
    else
      let idx := r t % deck.length
      drawLoop r count (deck.eraseIdx idx) (hand ++ [deck.getD idx ⟨.plus, 0⟩]) (t + 1)

/-- `generatePuzzle` from `lib/game/generate`. -/
def generatePuzzle (r : RandSource) (t : Nat) (cardCount : Nat) (ranges : CardRanges) :
    List Card × Nat :=
  drawLoop r cardCount (generateDeck ranges) [] t

/-- `FindGoodPuzzleOptions`, with all fields present (the TS defaults are
`defaultOptions`). -/
structure FindGoodPuzzleOptions where
  cardCount : Nat
  requireZero : Bool
  requireGood : Bool
  maxAttempts : Nat
  ranges : CardRanges

/-- The defaulted options of `findGoodPuzzle({})`. -/
def defaultOptions : FindGoodPuzzleOptions :=
  ⟨6, true, true, MAX_GENERATION_ATTEMPTS, DEFAULT_CARD_RANGES⟩

/-- `FindGoodPuzzleResult`. -/
structure FindGoodPuzzleResult where
  puzzle : List Card
  result : PuzzleResult
  attempts : Nat
  relaxedQuality : Bool
deriving DecidableEq

/-- The `while (attempts < maxAttempts * 2)` loop of `findGoodPuzzle`, with
`fuel = maxAttempts * 2 - attempts` as the structural counter; at fuel 0 the
fallback returns one more unconditional puzzle with `relaxedQuality = true`. -/
def fgpLoop (r : RandSource) (o : FindGoodPuzzleOptions) :
    Nat → Nat → ℚ → Bool → Nat → FindGoodPuzzleResult
  | 0, attempts, _, _, t =>
    let g := generatePuzzle r t o.cardCount o.ranges
    let a := generateAnswers r g.2 g.1
    ⟨g.1, a.1, attempts, true⟩
  | fuel + 1, attempts, threshold, relaxed, t =>
    let attempts1 := attempts + 1
    let threshold1 :=
      if attempts1 > o.maxAttempts ∧ relaxed = false then RELAXED_QUALITY_THRESHOLD
      else threshold
    let relaxed1 :=
      if attempts1 > o.maxAttempts ∧ relaxed = false then true else relaxed
    let g := generatePuzzle r t o.cardCount o.ranges
    let a := generateAnswers r g.2 g.1
    let result := a.1
    if result.hasValidAnswers = false then
      fgpLoop r o fuel attempts1 threshold1 relaxed1 a.2
    else if (result.totalPermutations : ℚ) / (result.uniqueAnswers : ℚ) > threshold1 then
      fgpLoop r o fuel attempts1 threshold1 relaxed1 a.2
    else if o.requireZero = true ∧ result.hasZero = false then
      fgpLoop r o fuel attempts1 threshold1 relaxed1 a.2
    else if o.requireGood = true ∧ result.isGood = false ∧ relaxed1 = false then
      fgpLoop r o fuel attempts1 threshold1 relaxed1 a.2
    else ⟨g.1, result, attempts1, relaxed1⟩

/-- `findGoodPuzzle` from `lib/game/generate`. -/
def findGoodPuzzle (r : RandSource) (o : FindGoodPuzzleOptions) (t : Nat) :
    FindGoodPuzzleResult :=
  fgpLoop r o (o.maxAttempts * 2) 0 QUALITY_THRESHOLD false t

/-! ### Lemmas: digits and numeric parsing -/

theorem digitsVal_append_singleton (l : List Char) (c : Char) :
    digitsVal (l ++ [c]) = 10 * digitsVal l + (c.toNat - 48) := by
  unfold digitsVal
  rw [List.foldl_append]
  rfl

theorem toNat_digitChar (d : Nat) (h : d < 10) : (digitChar d).toNat = 48 + d := by
  have hv : Nat.isValidChar (48 + d) := Or.inl (by omega)
  simp only [digitChar, Char.ofNat, dif_pos hv, Char.ofNatAux, Char.toNat, UInt32.toNat]
  simp [BitVec.toNat_ofNat]

theorem isDigitChar_digitChar (d : Nat) (h : d < 10) : isDigitChar (digitChar d) = true := by
  simp only [isDigitChar, toNat_digitChar d h, Bool.and_eq_true, decide_eq_true_eq]
  omega

theorem natToCharsAux_spec (fuel n : Nat) (h : n < fuel) :
    natToCharsAux fuel n ≠ [] ∧
    (∀ c ∈ natToCharsAux fuel n, isDigitChar c = true) ∧
    digitsVal (natToCharsAux fuel n) = n := by
  induction fuel generalizing n with
  | zero => omega
  | succ fuel ih =>
    unfold natToCharsAux
    by_cases hn : n < 10
    · simp only [if_pos hn]
      refine ⟨by simp, ?_, ?_⟩
      · intro c hc
        simp only [List.mem_singleton] at hc
        subst hc
        exact isDigitChar_digitChar n hn
      · simp only [digitsVal, List.foldl]
        rw [toNat_digitChar n hn]
        omega
    · simp only [if_neg hn]
      have hdiv : n / 10 < fuel := by omega
      obtain ⟨hne, hdig, hval⟩ := ih (n / 10) hdiv
      refine ⟨by simp, ?_, ?_⟩
      · intro c hc
        rw [List.mem_append] at hc
        rcases hc with hc | hc
        · exact hdig c hc
        · simp only [List.mem_singleton] at hc
          subst hc
          exact isDigitChar_digitChar (n % 10) (by omega)
      · rw [digitsVal_append_singleton, hval]
        rw [toNat_digitChar (n % 10) (by omega)]
        omega

theorem natToChars_spec (n : Nat) :
    natToChars n ≠ [] ∧
    (∀ c ∈ natToChars n, isDigitChar c = true) ∧
    digitsVal (natToChars n) = n :=
  natToCharsAux_spec (n + 1) n (Nat.lt_succ_self n)

theorem isWS_of_isDigitChar (c : Char) (h : isDigitChar c = true) : isWS c = false := by
  simp only [isDigitChar, Bool.and_eq_true, decide_eq_true_eq] at h
  simp only [isWS, Bool.or_eq_false_iff, decide_eq_false_iff_not]
  refine ⟨⟨⟨⟨⟨?_, ?_⟩, ?_⟩, ?_⟩, ?_⟩, ?_⟩ <;> (rintro rfl; revert h; decide)

theorem digitsPrefixVal_of_all_digits (s : List Char) (hne : s ≠ [])
    (hdig : ∀ c ∈ s, isDigitChar c = true) :
    digitsPrefixVal s = some (digitsVal s) := by
  unfold digitsPrefixVal
  have ht : s.takeWhile isDigitChar = s := List.takeWhile_eq_self_iff.mpr hdig
  rw [ht]
  simp [hne]

theorem jsParseInt_digits (s : List Char) (hne : s ≠ [])
    (hdig : ∀ c ∈ s, isDigitChar c = true) :
    jsParseInt s = some (digitsVal s : Int) := by
  obtain ⟨c, rest, rfl⟩ : ∃ c rest, s = c :: rest := by
    cases s with
    | nil => exact absurd rfl hne
    | cons c rest => exact ⟨c, rest, rfl⟩
  have hc := hdig c (List.mem_cons_self _ _)
  have hcd : 48 ≤ c.toNat ∧ c.toNat ≤ 57 := by
    simpa [isDigitChar] using hc
  have hws : (c :: rest).dropWhile isWS = c :: rest := by
    rw [List.dropWhile_cons, isWS_of_isDigitChar c hc]
    simp
  have hcm : c ≠ '-' := by rintro rfl; revert hcd; decide
  have hcp : c ≠ '+' := by rintro rfl; revert hcd; decide
  unfold jsParseInt
  rw [hws]
  simp only [if_neg hcm, if_neg hcp]
  rw [digitsPrefixVal_of_all_digits (c :: rest) hne hdig]
  rfl

theorem jsParseInt_natToChars (n : Nat) : jsParseInt (natToChars n) = some (n : Int) := by
  obtain ⟨hne, hdig, hval⟩ := natToChars_spec n
  rw [jsParseInt_digits _ hne hdig, hval]

theorem jsParseInt_intToChars (v : Int) : jsParseInt (intToChars v) = some v := by
  unfold intToChars
  by_cases hv : v < 0
  · rw [if_pos hv]
    obtain ⟨hne, hdig, hval⟩ := natToChars_spec (-v).toNat
    unfold jsParseInt
    have hws : ('-' :: natToChars (-v).toNat).dropWhile isWS =
        '-' :: natToChars (-v).toNat := by
      rw [List.dropWhile_cons, show isWS '-' = false from by decide]
      simp
    rw [hws]
    simp only [if_pos rfl]
    rw [digitsPrefixVal_of_all_digits _ hne hdig, hval]
    show some (-(((-v).toNat : Nat) : Int)) = some v
    congr 1
    omega
  · rw [if_neg hv]
    rw [jsParseInt_natToChars]
    congr 1
    omega

/-! ### Lemmas: cards, tokens and the split/join round trip -/

theorem parseOp_opChar (op : Operator) : parseOp (opChar op) = some op := by
  cases op <;> rfl

theorem parseCard_cardToString (c : Card) : parseCard (cardToString c) = .ok c := by
  show (match parseOp (opChar c.operator) with
    | none => Except.error "Invalid operator"
    | some op =>
      match jsParseInt (intToChars c.value) with
      | none => Except.error "Invalid card value"
      | some v => Except.ok ⟨op, v⟩) = Except.ok c
  rw [parseOp_opChar, jsParseInt_intToChars]

/-- Every character of a card token is an operator character or a digit or
the minus sign used for negative values. -/
theorem mem_cardToString (c : Card) (ch : Char) (h : ch ∈ cardToString c) :
    isValidOperator ch = true ∨ isDigitChar ch = true := by
  unfold cardToString at h
  rcases List.mem_cons.mp h with rfl | h
  · left
    cases c.operator <;> decide
  · unfold intToChars at h
    split at h
    · rcases List.mem_cons.mp h with rfl | h
      · left; decide
      · exact Or.inr ((natToChars_spec _).2.1 ch h)
    · exact Or.inr ((natToChars_spec _).2.1 ch h)

theorem sigTokenChar_ne_comma (ch : Char)
    (h : isValidOperator ch = true ∨ isDigitChar ch = true) : ch ≠ ',' := by
  rintro rfl
  rcases h with h | h <;> revert h <;> decide

theorem sigTokenChar_not_ws (ch : Char)
    (h : isValidOperator ch = true ∨ isDigitChar ch = true) : isWS ch = false := by
  rcases h with h | h
  · unfold isValidOperator parseOp at h
    split at h
    · subst_vars; rfl
    · split at h
      · subst_vars; rfl
      · split at h
        · subst_vars; rfl
        · split at h
          · subst_vars; rfl
          · simp at h
  · exact isWS_of_isDigitChar ch h

theorem cardToString_ne_nil (c : Card) : cardToString c ≠ [] := by
  simp [cardToString]

theorem dropWhile_eq_self_of_not (p : Char → Bool) (l : List Char)
    (h : ∀ c ∈ l, p c = false) : l.dropWhile p = l := by
  cases l with
  | nil => rfl
  | cons c cs =>
    rw [List.dropWhile_cons, h c (List.mem_cons_self _ _)]
    simp

theorem jsTrim_eq_self (s : List Char) (h : ∀ c ∈ s, isWS c = false) :
    jsTrim s = s := by
  unfold jsTrim
  rw [dropWhile_eq_self_of_not _ _ h,
    dropWhile_eq_self_of_not _ _ (fun c hc => h c (List.mem_reverse.mp hc)),
    List.reverse_reverse]

theorem splitComma_ne_nil (s : List Char) : splitComma s ≠ [] := by
  induction s with
  | nil => simp [splitComma]
  | cons c cs ih =>
    unfold splitComma
    split
    · simp
    · split
      · simp
      · simp

theorem splitComma_no_comma (t : List Char) (h : ∀ c ∈ t, c ≠ ',') :
    splitComma t = [t] := by
  induction t with
  | nil => rfl
  | cons c cs ih =>
    unfold splitComma
    rw [if_neg (h c (List.mem_cons_self _ _))]
    rw [ih (fun x hx => h x (List.mem_cons_of_mem _ hx))]

theorem splitComma_append_comma (t rest : List Char) (h : ∀ c ∈ t, c ≠ ',') :
    splitComma (t ++ ',' :: rest) = t :: splitComma rest := by
  induction t with
  | nil => simp [splitComma]
  | cons c cs ih =>
    have hc := h c (List.mem_cons_self _ _)
    have ih' := ih (fun x hx => h x (List.mem_cons_of_mem _ hx))
    show splitComma (c :: (cs ++ ',' :: rest)) = (c :: cs) :: splitComma rest
    rw [splitComma, if_neg hc, ih']

theorem splitComma_joinComma (ts : List (List Char)) (hne : ts ≠ [])
    (h : ∀ t ∈ ts, ∀ c ∈ t, c ≠ ',') :
    splitComma (joinComma ts) = ts := by
  induction ts with
  | nil => exact absurd rfl hne
  | cons t ts ih =>
    cases ts with
    | nil =>
      show splitComma (joinComma [t]) = [t]
      unfold joinComma
      exact splitComma_no_comma t (h t (List.mem_cons_self _ _))
    | cons t' ts' =>
      show splitComma (t ++ ',' :: joinComma (t' :: ts')) = t :: t' :: ts'
      rw [splitComma_append_comma t _ (h t (List.mem_cons_self _ _))]
      rw [ih (by simp) (fun u hu => h u (List.mem_cons_of_mem _ hu))]

theorem mem_joinComma (ts : List (List Char)) (c : Char) (h : c ∈ joinComma ts) :
    c = ',' ∨ ∃ t ∈ ts, c ∈ t := by
  induction ts with
  | nil => simp [joinComma] at h
  | cons t ts ih =>
    cases ts with
    | nil =>
      right
      exact ⟨t, List.mem_cons_self _ _, h⟩
    | cons t' ts' =>
      rw [show joinComma (t :: t' :: ts') = t ++ ',' :: joinComma (t' :: ts') from rfl,
        List.mem_append] at h
      rcases h with h | h
      · exact Or.inr ⟨t, List.mem_cons_self _ _, h⟩
      · rcases List.mem_cons.mp h with rfl | h
        · exact Or.inl rfl
        · rcases ih h with h | ⟨u, hu, hc⟩
          · exact Or.inl h
          · exact Or.inr ⟨u, List.mem_cons_of_mem _ hu, hc⟩

/-- Every character of a canonical signature is an operator character, a
digit, or the comma separator. -/
theorem mem_toCanonicalSignature (cards : List Card) (c : Char)
    (h : c ∈ toCanonicalSignature cards) :
    c = ',' ∨ isValidOperator c = true ∨ isDigitChar c = true := by
  unfold toCanonicalSignature at h
  rcases mem_joinComma _ _ h with h | ⟨t, ht, hc⟩
  · exact Or.inl h
  · obtain ⟨card, _, rfl⟩ := List.mem_map.mp ht
    exact Or.inr (mem_cardToString card c hc)

theorem parseCardList_map_cardToString (l : List Card) :
    parseCardList (l.map cardToString) = .ok l := by
  induction l with
  | nil => rfl
  | cons c cs ih =>
    show parseCardList (cardToString c :: cs.map cardToString) = .ok (c :: cs)
    unfold parseCardList
    rw [parseCard_cardToString, ih]
    rfl

/-! ### Lemmas: the canonical sort -/

theorem cardLE_iff (a b : Card) :
    cardLE a b ↔
      OPERATOR_ORDER a.operator < OPERATOR_ORDER b.operator ∨
        (OPERATOR_ORDER a.operator = OPERATOR_ORDER b.operator ∧ a.value ≤ b.value) := by
  unfold cardLE compareCards
  split
  · omega
  · omega

instance : IsTotal Card cardLE :=
  ⟨fun a b => by
    rw [cardLE_iff, cardLE_iff]
    omega⟩

instance : IsTrans Card cardLE :=
  ⟨fun a b c hab hbc => by
    rw [cardLE_iff] at hab hbc ⊢
    omega⟩

theorem sortCards_idem (cards : List Card) :
    sortCards (sortCards cards) = sortCards cards :=
  List.Sorted.insertionSort_eq (List.sorted_insertionSort cardLE cards)

theorem sortCards_perm (cards : List Card) : (sortCards cards).Perm cards :=
  List.perm_insertionSort cardLE cards

/-! ### Claim C6: signature canonicalization round trip -/

theorem fromSignature_toCanonicalSignature (h : List Card) :
    fromSignature (toCanonicalSignature h) = .ok (sortCards h) := by
  rcases hs : sortCards h with _ | ⟨x, xs⟩
  · have hnil : h = [] := ((hs ▸ sortCards_perm h : ([] : List Card).Perm h).symm).eq_nil
    subst hnil
    rw [show sortCards ([] : List Card) = [] from rfl] at hs
    rfl
  · -- the signature is nonempty and contains no whitespace at all
    have htok : ∀ t ∈ (sortCards h).map cardToString, ∀ c ∈ t, c ≠ ',' := by
      intro t ht c hc
      obtain ⟨card, _, rfl⟩ := List.mem_map.mp ht
      exact sigTokenChar_ne_comma c (mem_cardToString card c hc)
    have hnws : ∀ c ∈ toCanonicalSignature h, isWS c = false := by
      intro c hc
      rcases mem_toCanonicalSignature h c hc with rfl | hc
      · rfl
      · exact sigTokenChar_not_ws c hc
    have htrim : jsTrim (toCanonicalSignature h) = toCanonicalSignature h :=
      jsTrim_eq_self _ hnws
    have hne : toCanonicalSignature h ≠ [] := by
      unfold toCanonicalSignature
      rw [hs]
      cases xs with
      | nil => exact cardToString_ne_nil x
      | cons y ys =>
        show cardToString x ++ ',' :: joinComma _ ≠ []
        simp [cardToString]
    unfold fromSignature
    have hbe : (jsTrim (toCanonicalSignature h)).isEmpty = false := by
      rw [htrim]
      cases hc : toCanonicalSignature h with
      | nil => exact absurd hc hne
      | cons a as => rfl
    rw [hbe]
    simp only [Bool.false_eq_true, if_false]
    have hsplit : splitComma (toCanonicalSignature h) = (sortCards h).map cardToString := by
      unfold toCanonicalSignature
      exact splitComma_joinComma _ (by rw [hs]; simp) htok
    have hproc : processedTokens (toCanonicalSignature h) = (sortCards h).map cardToString := by
      unfold processedTokens
      rw [hsplit]
      have hmap : ((sortCards h).map cardToString).map jsTrim =
          (sortCards h).map cardToString := by
        rw [List.map_map]
        apply List.map_congr_left
        intro card _
        exact jsTrim_eq_self _ fun c hc => sigTokenChar_not_ws c (mem_cardToString card c hc)
      rw [hmap]
      apply List.filter_eq_self.mpr
      intro t ht
      obtain ⟨card, _, rfl⟩ := List.mem_map.mp ht
      have := cardToString_ne_nil card
      simp only [decide_eq_true_eq]
      cases hcs : cardToString card with
      | nil => exact absurd hcs this
      | cons a as => simp
    rw [hproc, parseCardList_map_cardToString, hs]

/-- Claim C6: re-canonicalizing the parse of a canonical signature reproduces
it exactly; the decoded card list is the canonical sort of the hand, so
`toCanonicalSignature (fromSignature (toCanonicalSignature h))` equals
`toCanonicalSignature h` for every hand `h`. -/
theorem signature_roundtrip_c6 (h : List Card) :
    fromSignature (toCanonicalSignature h) = .ok (sortCards h) ∧
      toCanonicalSignature (sortCards h) = toCanonicalSignature h := by
  refine ⟨fromSignature_toCanonicalSignature h, ?_⟩
  unfold toCanonicalSignature
  rw [show sortCards (sortCards h) = sortCards h from sortCards_idem h]

/-! ### Claim C7: URL-safe encoding round trip -/

theorem encode_cons (c : Char) (s : List Char) :
    encodeSignatureForUrl (c :: s) = encodeSignatureForUrl [c] ++ encodeSignatureForUrl s := rfl

theorem decode_append (a b : List Char) :
    decodeSignatureFromUrl (a ++ b) =
      decodeSignatureFromUrl a ++ decodeSignatureFromUrl b := by
  simp [decodeSignatureFromUrl, replaceChar]

theorem urlChar_roundtrip (c : Char)
    (h : c = ',' ∨ isValidOperator c = true ∨ isDigitChar c = true) :
    decodeSignatureFromUrl (encodeSignatureForUrl [c]) = [c] := by
  rcases h with rfl | h | h
  · decide
  · unfold isValidOperator parseOp at h
    split at h
    · subst_vars; decide
    · split at h
      · subst_vars; decide
      · split at h
        · subst_vars; decide
        · split at h
          · subst_vars; decide
          · simp at h
  · have hd : 48 ≤ c.toNat ∧ c.toNat ≤ 57 := by simpa [isDigitChar] using h
    have h1 : c ≠ '÷' := by rintro rfl; revert hd; decide
    have h2 : c ≠ '*' := by rintro rfl; revert hd; decide
    have h3 : c ≠ '+' := by rintro rfl; revert hd; decide
    have h4 : c ≠ '-' := by rintro rfl; revert hd; decide
    have h5 : c ≠ ',' := by rintro rfl; revert hd; decide
    have h6 : c ≠ 'd' := by rintro rfl; revert hd; decide
    have h7 : c ≠ 'm' := by rintro rfl; revert hd; decide
    have h8 : c ≠ 'a' := by rintro rfl; revert hd; decide
    have h9 : c ≠ 's' := by rintro rfl; revert hd; decide
    have h10 : c ≠ '_' := by rintro rfl; revert hd; decide
    simp [encodeSignatureForUrl, decodeSignatureFromUrl, replaceChar,
      h1, h2, h3, h4, h5, h6, h7, h8, h9, h10]

theorem decode_encode_chars (s : List Char)
    (h : ∀ c ∈ s, c = ',' ∨ isValidOperator c = true ∨ isDigitChar c = true) :
    decodeSignatureFromUrl (encodeSignatureForUrl s) = s := by
  induction s with
  | nil => rfl
  | cons c cs ih =>
    have hc := h c (List.mem_cons_self _ _)
    have ih' := ih fun x hx => h x (List.mem_cons_of_mem _ hx)
    rw [encode_cons, decode_append, ih', urlChar_roundtrip c hc]
    rfl

/-- Claim C7: for every valid canonical signature `s`,
`decodeSignatureFromUrl (encodeSignatureForUrl s) = s`: the URL-safe
letter substitution of the four operator characters and the separator is
exactly invertible and never collides with the digit characters. -/
theorem url_roundtrip_c7 (s : List Char) (hv : isValidSignature s = true) :
    decodeSignatureFromUrl (encodeSignatureForUrl s) = s := by
  unfold isValidSignature at hv
  split at hv
  · exact absurd hv (by simp)
  · rcases hfs : fromSignature s with e | cards
    · rw [hfs] at hv
      exact absurd hv (by simp)
    · rw [hfs] at hv
      have hb : (s == toCanonicalSignature cards) = true :=
        (Bool.and_eq_true _ _ |>.mp hv).2
      have hs : s = toCanonicalSignature cards := by
        exact eq_of_beq hb
      rw [hs]
      exact decode_encode_chars _ fun c hc => mem_toCanonicalSignature cards c hc

/-- Witness for C7 at the concrete valid signature `"+3"`. -/
theorem url_roundtrip_c7_witness :
    isValidSignature ['+', '3'] = true ∧
      decodeSignatureFromUrl (encodeSignatureForUrl ['+', '3']) = ['+', '3'] :=
  ⟨by decide, url_roundtrip_c7 ['+', '3'] (by decide)⟩

/-! ### Claim C8: malformed signature tokens -/

/-- Claim C8 counterexample: the token `"+3x"` has a value part (`"3x"`)
that is not a numeral, yet `fromSignature` succeeds and returns a card
list (the card `+3`), because `parseInt` silently accepts trailing
garbage after a digit prefix.  The claim as stated (`fromSignature`
"never returns a card list for such input") is therefore false. -/
theorem fromSignature_accepts_garbage_c8 :
    fromSignature ['+', '3', 'x'] = .ok [⟨Operator.plus, 3⟩] := by
  rfl

theorem parseCard_cons (c : Char) (rest : List Char) :
    parseCard (c :: rest) =
      match parseOp c with
      | none => Except.error "Invalid operator"
      | some op =>
        match jsParseInt rest with
        | none => Except.error "Invalid card value"
        | some v => Except.ok ⟨op, v⟩ := rfl

theorem parseCardList_error_of_mem (ts : List (List Char)) (t : List Char)
    (ht : t ∈ ts) (he : ∃ e, parseCard t = .error e) :
    ∃ e, parseCardList ts = .error e := by
  induction ts with
  | nil => simp at ht
  | cons u us ih =>
    rcases List.mem_cons.mp ht with rfl | ht
    · obtain ⟨e, hpe⟩ := he
      refine ⟨e, ?_⟩
      unfold parseCardList
      rw [hpe]
      rfl
    · cases hu : parseCard u with
      | error e =>
        refine ⟨e, ?_⟩
        unfold parseCardList
        rw [hu]
        rfl
      | ok c =>
        obtain ⟨e, hpe⟩ := ih ht
        refine ⟨e, ?_⟩
        unfold parseCardList
        rw [hu, hpe]
        rfl

theorem splitComma_cons_comma (cs : List Char) :
    splitComma (',' :: cs) = [] :: splitComma cs := by
  rw [splitComma, if_pos rfl]

theorem splitComma_cons_ne (a : Char) (ha : a ≠ ',') (cs t' : List Char)
    (ts' : List (List Char)) (hsa : splitComma cs = t' :: ts') :
    splitComma (a :: cs) = (a :: t') :: ts' := by
  rw [splitComma, if_neg ha, hsa]

theorem mem_of_mem_splitComma (s t : List Char) (ht : t ∈ splitComma s)
    (c : Char) (hc : c ∈ t) : c ∈ s := by
  induction s generalizing t with
  | nil =>
    simp only [splitComma, List.mem_singleton] at ht
    subst ht
    simp at hc
  | cons a as ih =>
    by_cases ha : a = ','
    · subst ha
      rw [splitComma_cons_comma] at ht
      rcases List.mem_cons.mp ht with rfl | ht
      · simp at hc
      · exact List.mem_cons_of_mem _ (ih t ht hc)
    · rcases hsa : splitComma as with _ | ⟨t', ts'⟩
      · exact absurd hsa (splitComma_ne_nil as)
      · rw [splitComma_cons_ne a ha as t' ts' hsa] at ht
        rcases List.mem_cons.mp ht with rfl | ht
        · rcases List.mem_cons.mp hc with rfl | hc
          · exact List.mem_cons_self _ _
          · exact List.mem_cons_of_mem _
              (ih t' (by rw [hsa]; exact List.mem_cons_self _ _) hc)
        · exact List.mem_cons_of_mem _
            (ih t (by rw [hsa]; exact List.mem_cons_of_mem _ ht) hc)

theorem mem_of_mem_jsTrim (s : List Char) (c : Char) (h : c ∈ jsTrim s) : c ∈ s := by
  unfold jsTrim at h
  rw [List.mem_reverse] at h
  have h1 : c ∈ (s.dropWhile isWS).reverse := (List.dropWhile_suffix isWS).subset h
  rw [List.mem_reverse] at h1
  exact (List.dropWhile_suffix isWS).subset h1

theorem jsTrim_head_not_ws (s : List Char) (c : Char) (rest : List Char)
    (h : jsTrim s = c :: rest) : isWS c = false := by
  unfold jsTrim at h
  have hsuf : (s.dropWhile isWS).reverse.dropWhile isWS <:+ (s.dropWhile isWS).reverse :=
    List.dropWhile_suffix _
  have hpre : ((s.dropWhile isWS).reverse.dropWhile isWS).reverse <+: s.dropWhile isWS := by
    have := List.reverse_prefix.mpr hsuf
    simpa using this
  rw [h] at hpre
  obtain ⟨tail, htail⟩ := hpre
  have heq : s.dropWhile isWS = c :: (rest ++ tail) := by
    rw [← htail]
    simp
  have hne : s.dropWhile isWS ≠ [] := by rw [heq]; simp
  have hh := List.head_dropWhile_not isWS s hne
  have hhead : (s.dropWhile isWS).head hne = c := by simp [heq]
  rwa [hhead] at hh

theorem all_ws_of_jsTrim_eq_nil (s : List Char) (h : jsTrim s = []) :
    ∀ c ∈ s, isWS c = true := by
  unfold jsTrim at h
  rw [List.reverse_eq_nil_iff, List.dropWhile_eq_nil_iff] at h
  intro c hc
  have hc' : c ∈ s.takeWhile isWS ++ s.dropWhile isWS := by
    rw [List.takeWhile_append_dropWhile]
    exact hc
  rcases List.mem_append.mp hc' with h1 | h2
  · exact List.mem_takeWhile_imp h1
  · exact h c (List.mem_reverse.mpr h2)

/-- Claim C8 (amended): `fromSignature` reports a parse error whenever the
processed token list (split on commas, trimmed, empty tokens dropped)
contains a token whose operator character is invalid or whose value part
has no parseable integer prefix (`parseInt` gives `NaN`).  (The claim as
stated is false: a value part with trailing garbage after a digit prefix,
such as `"3x"`, is accepted — see the counterexample.) -/
theorem fromSignature_malformed_c8 (s : List Char) (c : Char) (rest : List Char)
    (hmem : (c :: rest) ∈ processedTokens s)
    (hbad : isValidOperator c = false ∨ jsParseInt rest = none) :
    ∃ e, fromSignature s = .error e := by
  have herr : ∃ e, parseCard (c :: rest) = .error e := by
    rcases hbad with hb | hb
    · refine ⟨"Invalid operator", ?_⟩
      unfold isValidOperator at hb
      cases hp : parseOp c with
      | none => rw [parseCard_cons, hp]
      | some op => rw [hp] at hb; simp at hb
    · cases hp : parseOp c with
      | none =>
        refine ⟨"Invalid operator", ?_⟩
        rw [parseCard_cons, hp]
      | some op =>
        refine ⟨"Invalid card value", ?_⟩
        rw [parseCard_cons, hp, hb]
  -- the malformed token contains a non-whitespace character of `s`,
  -- so the whole signature does not trim to empty
  obtain ⟨hmm, -⟩ := List.mem_filter.mp hmem
  obtain ⟨t₀, ht₀, htr⟩ := List.mem_map.mp hmm
  have hcws : isWS c = false := jsTrim_head_not_ws t₀ c rest htr
  have hct₀ : c ∈ t₀ := mem_of_mem_jsTrim t₀ c (htr ▸ List.mem_cons_self _ _)
  have hcs : c ∈ s := mem_of_mem_splitComma s t₀ ht₀ c hct₀
  have hne : (jsTrim s).isEmpty = false := by
    cases he : jsTrim s with
    | nil => exact absurd (all_ws_of_jsTrim_eq_nil s he c hcs) (by rw [hcws]; simp)
    | cons a as => rfl
  unfold fromSignature
  rw [hne]
  simp only [Bool.false_eq_true, if_false]
  exact parseCardList_error_of_mem _ _ hmem herr

/-- Witness for the amended C8 at the concrete signature `"+q,+3"` whose
first token has the unparseable value part `"q"`. -/
theorem fromSignature_malformed_c8_witness :
    (['+', 'q'] ∈ processedTokens ['+', 'q', ',', '+', '3'] ∧ jsParseInt ['q'] = none) ∧
      ∃ e, fromSignature ['+', 'q', ',', '+', '3'] = .error e :=
  ⟨⟨by decide, by decide⟩,
    fromSignature_malformed_c8 ['+', 'q', ',', '+', '3'] '+' ['q'] (by decide)
      (Or.inr (by decide))⟩

/-! ### Lemmas: swaps, Heap permutation and shuffling -/

theorem swap_perm {α : Type} [DecidableEq α] (l : List α) (i j : Nat) :
    (swap l i j).Perm l := by
  unfold swap
  cases hi : l[i]? with
  | none => exact List.Perm.refl l
  | some a =>
    cases hj : l[j]? with
    | none => exact List.Perm.refl l
    | some b =>
      obtain ⟨hil, hia⟩ := List.getElem?_eq_some_iff.mp hi
      obtain ⟨hjl, hjb⟩ := List.getElem?_eq_some_iff.mp hj
      rw [List.perm_iff_count]
      intro x
      have h1 : j < (l.set i b).length := by simpa using hjl
      rw [List.count_set _ _ _ _ h1, List.count_set _ _ _ _ hil]
      have h2 : a = x → 1 ≤ List.count x l := by
        rintro rfl
        exact List.count_pos_iff.mpr (hia ▸ List.getElem_mem hil)
      have h3 : b = x → 1 ≤ List.count x l := by
        rintro rfl
        exact List.count_pos_iff.mpr (hjb ▸ List.getElem_mem hjl)
      simp only [List.getElem_set, beq_iff_eq, hia, hjb]
      split_ifs <;> simp_all

theorem heapLoop_perm {α : Type} [DecidableEq α] (n : Nat)
    (sub : List α → List (List α) × List α)
    (hsub : ∀ w : List α, (∀ p ∈ (sub w).1, p.Perm w) ∧ (sub w).2.Perm w) :
    ∀ (i : Nat) (w : List α),
      (∀ p ∈ (heapLoop n sub i w).1, p.Perm w) ∧ (heapLoop n sub i w).2.Perm w := by
  intro i
  induction i with
  | zero =>
    intro w
    exact ⟨by simp [heapLoop], by simp [heapLoop]⟩
  | succ i ih =>
    intro w
    obtain ⟨ih1, ih2⟩ := ih w
    obtain ⟨hs1, hs2⟩ := hsub (heapLoop n sub i w).2
    constructor
    · intro p hp
      simp only [heapLoop] at hp
      rcases List.mem_append.mp hp with hp | hp
      · exact ih1 p hp
      · exact ((hs1 p hp).trans ih2)
    · show (heapLoop n sub (i + 1) w).2.Perm w
      simp only [heapLoop]
      split
      · exact ((swap_perm _ _ _).trans hs2).trans ih2
      · exact ((swap_perm _ _ _).trans hs2).trans ih2

theorem heapPermute_perm {α : Type} [DecidableEq α] :
    ∀ (n : Nat) (w : List α),
      (∀ p ∈ (heapPermute n w).1, p.Perm w) ∧ (heapPermute n w).2.Perm w := by
  intro n
  induction n with
  | zero =>
    intro w
    refine ⟨?_, ?_⟩ <;> simp [heapPermute]
  | succ m ih =>
    cases m with
    | zero =>
      intro w
      refine ⟨?_, ?_⟩ <;> simp [heapPermute]
    | succ k =>
      intro w
      exact heapLoop_perm (k + 2) (heapPermute (k + 1)) ih (k + 2) w

theorem permute_perm {α : Type} [DecidableEq α] (l : List α) :
    ∀ p ∈ permute l, p.Perm l :=
  (heapPermute_perm l.length l).1

theorem fyLoop_perm {α : Type} [DecidableEq α] (r : RandSource) :
    ∀ (i : Nat) (w : List α) (t : Nat), ((fyLoop r i w t).1).Perm w := by
  intro i
  induction i with
  | zero => intro w t; exact .refl w
  | succ i ih =>
    intro w t
    exact (ih _ _).trans (swap_perm w (i + 1) (r t % (i + 2)))

theorem shuffle_perm {α : Type} [DecidableEq α] (r : RandSource) (l : List α) (t : Nat) :
    ((shuffle r l t).1).Perm l :=
  fyLoop_perm r (l.length - 1) l t

/-! ### Claim C5: sampled search -/

theorem sampleLoop_mem_perm (r : RandSource) (cards : List Card) (sampleSize : Nat) :
    ∀ (fuel : Nat) (samples : List (List Card)) (seen : List (List Char)) (t : Nat),
      (∀ p ∈ samples, p.Perm cards) →
      ∀ p ∈ (sampleLoop r cards sampleSize fuel samples seen t).1, p.Perm cards := by
  intro fuel
  induction fuel with
  | zero => intro samples seen t hs p hp; exact hs p hp
  | succ fuel ih =>
    intro samples seen t hs p hp
    simp only [sampleLoop] at hp
    by_cases hlen : samples.length < sampleSize
    · rw [if_pos hlen] at hp
      by_cases hk : arrangementKey (shuffle r cards t).1 ∈ seen
      · rw [if_pos hk] at hp
        exact ih _ _ _ hs p hp
      · rw [if_neg hk] at hp
        refine ih _ _ _ ?_ p hp
        intro q hq
        rcases List.mem_append.mp hq with hq | hq
        · exact hs q hq
        · rw [List.mem_singleton] at hq
          subst hq
          exact shuffle_perm r cards t
    · rw [if_neg hlen] at hp
      exact hs p hp

theorem sampleLoop_length_nodup (r : RandSource) (cards : List Card) (sampleSize : Nat) :
    ∀ (fuel : Nat) (samples : List (List Card)) (seen : List (List Char)) (t : Nat),
      samples.length ≤ sampleSize →
      (samples.map arrangementKey).Nodup →
      (∀ k ∈ samples.map arrangementKey, k ∈ seen) →
      (sampleLoop r cards sampleSize fuel samples seen t).1.length ≤ sampleSize ∧
        ((sampleLoop r cards sampleSize fuel samples seen t).1.map arrangementKey).Nodup := by
  intro fuel
  induction fuel with
  | zero => intro samples seen t h1 h2 _; exact ⟨h1, h2⟩
  | succ fuel ih =>
    intro samples seen t h1 h2 h3
    show (sampleLoop r cards sampleSize (fuel + 1) samples seen t).1.length ≤ sampleSize ∧ _
    simp only [sampleLoop]
    by_cases hlen : samples.length < sampleSize
    · rw [if_pos hlen]
      by_cases hk : arrangementKey (shuffle r cards t).1 ∈ seen
      · rw [if_pos hk]
        exact ih _ _ _ h1 h2 h3
      · rw [if_neg hk]
        refine ih _ _ _ ?_ ?_ ?_
        · rw [List.length_append]
          simpa using hlen
        · rw [List.map_append]
          refine List.Nodup.append h2 (by simp) ?_
          intro k hk1 hk2
          simp only [List.map_cons, List.map_nil, List.mem_singleton] at hk2
          subst hk2
          exact hk (h3 _ hk1)
        · intro k hkm
          rw [List.map_append, List.mem_append] at hkm
          rcases hkm with hkm | hkm
          · exact List.mem_cons_of_mem _ (h3 k hkm)
          · simp only [List.map_cons, List.map_nil, List.mem_singleton] at hkm
            subst hkm
            exact List.mem_cons_self _ _
    · rw [if_neg hlen]
      exact ⟨h1, h2⟩

/-- Claim C5: for every hand and every random source, the sampled
Arrangement Search (`generateSampledPermutations` with the engine's
`SAMPLE_SIZE`) returns at most 5000 arrangements, no two of which are equal
as exact orderings, and every returned arrangement is a permutation of the
hand.  (The bound of `2 × SAMPLE_SIZE` shuffle attempts is the structural
iteration count of `sampleLoop`, so fewer than 5000 samples may be
returned.) -/
theorem sampling_cap_c5 (r : RandSource) (cards : List Card) (t : Nat) :
    (generateSampledPermutations r cards SAMPLE_SIZE t).1.length ≤ 5000 ∧
      (generateSampledPermutations r cards SAMPLE_SIZE t).1.Nodup ∧
      ∀ p ∈ (generateSampledPermutations r cards SAMPLE_SIZE t).1, p.Perm cards := by
  obtain ⟨h1, h2⟩ :=
    sampleLoop_length_nodup r cards SAMPLE_SIZE (SAMPLE_SIZE * 2) [] [] t
      (by simp) (by simp) (by simp)
  exact ⟨h1, h2.of_map arrangementKey,
    sampleLoop_mem_perm r cards SAMPLE_SIZE (SAMPLE_SIZE * 2) [] [] t (by simp)⟩

/-! ### Claim C4: a computational distinctness certificate

`permute` on an index list is checked duplicate-free by comparing a plain
sum of powers of two with a bitwise-or of the same powers: the two folds
agree exactly when no key repeats. -/

/-- Base-6 key of an index permutation (injective on the lists produced by
`permute` of a short index list; injectivity is not needed — `Nodup` of the
key list transfers to the permutation list by `List.Nodup.of_map`). -/
def permKey (p : List Nat) : Nat :=
  p.foldl (fun a x => a * 6 + x) 0

/-- Sum of `2 ^ k` over the keys. -/
def sumPow (l : List Nat) : Nat :=
  l.foldl (fun acc k => acc + 2 ^ k) 0

/-- Bitwise or of `2 ^ k` over the keys. -/
def orPow (l : List Nat) : Nat :=
  l.foldl (fun acc k => acc ||| 2 ^ k) 0

theorem add_two_pow_of_testBit_false :
    ∀ (k a : Nat), a.testBit k = false → a + 2 ^ k = a ||| 2 ^ k := by
  intro k
  induction k with
  | zero =>
    intro a hb
    rw [← Nat.bit_decomp a] at hb ⊢
    rw [Nat.testBit_bit_zero] at hb
    rw [hb]
    show Nat.bit false a.div2 + 1 = Nat.bit false a.div2 ||| Nat.bit true 0
    rw [Nat.lor_bit]
    simp [Nat.bit_val]
  | succ k ih =>
    intro a hb
    rw [← Nat.bit_decomp a] at hb ⊢
    rw [Nat.testBit_bit_succ] at hb
    have h2 : (2 : Nat) ^ (k + 1) = Nat.bit false (2 ^ k) := by
      simp [Nat.bit_val]
      ring
    rw [h2, Nat.lor_bit]
    have := ih a.div2 hb
    simp only [Nat.bit_val, Bool.or_false]
    cases a.bodd <;> simp <;> omega

theorem lor_le_add : ∀ (a b : Nat), a ||| b ≤ a + b := by
  intro a
  induction a using Nat.binaryRec with
  | z => simp
  | f b1 a' ih =>
    intro b
    rw [← Nat.bit_decomp b, Nat.lor_bit]
    have := ih b.div2
    simp only [Nat.bit_val]
    cases b1 <;> cases b.bodd <;> simp <;> omega

theorem lor_two_pow_of_testBit_true (a k : Nat) (h : a.testBit k = true) :
    a ||| 2 ^ k = a := by
  apply Nat.eq_of_testBit_eq
  intro j
  rw [Nat.testBit_lor]
  by_cases hj : j = k
  · subst hj
    simp [h]
  · rw [Nat.testBit_two_pow_of_ne (fun hh => hj hh.symm)]
    simp

theorem foldl_sumPow_eq (l : List Nat) :
    ∀ acc : Nat, l.foldl (fun acc k => acc + 2 ^ k) acc = acc + (l.map (2 ^ ·)).sum := by
  induction l with
  | nil => intro acc; simp
  | cons k ks ih =>
    intro acc
    rw [List.foldl_cons, ih]
    simp
    omega

theorem foldl_orPow_le (l : List Nat) :
    ∀ acc : Nat, l.foldl (fun acc k => acc ||| 2 ^ k) acc ≤ acc + (l.map (2 ^ ·)).sum := by
  induction l with
  | nil => intro acc; simp
  | cons k ks ih =>
    intro acc
    rw [List.foldl_cons]
    calc ks.foldl (fun acc k => acc ||| 2 ^ k) (acc ||| 2 ^ k)
        ≤ (acc ||| 2 ^ k) + (ks.map (2 ^ ·)).sum := ih _
      _ ≤ acc + 2 ^ k + (ks.map (2 ^ ·)).sum := by
          have := lor_le_add acc (2 ^ k)
          omega
      _ = acc + ((k :: ks).map (2 ^ ·)).sum := by simp; omega

theorem nodup_of_orPow_foldl (l : List Nat) :
    ∀ acc : Nat,
      l.foldl (fun acc k => acc ||| 2 ^ k) acc = acc + (l.map (2 ^ ·)).sum →
      l.Nodup ∧ ∀ k ∈ l, acc.testBit k = false := by
  induction l with
  | nil => intro acc _; simp
  | cons k ks ih =>
    intro acc h
    rw [List.foldl_cons] at h
    by_cases hb : acc.testBit k
    · exfalso
      have habs : acc ||| 2 ^ k = acc := lor_two_pow_of_testBit_true acc k hb
      rw [habs] at h
      have hle := foldl_orPow_le ks acc
      rw [h] at hle
      have hpos : 0 < 2 ^ k := Nat.pos_pow_of_pos k (by omega)
      simp only [List.map_cons, List.sum_cons] at hle
      omega
    · rw [Bool.not_eq_true] at hb
      have hor : acc ||| 2 ^ k = acc + 2 ^ k :=
        (add_two_pow_of_testBit_false k acc hb).symm
      rw [hor] at h
      have h' : ks.foldl (fun acc k => acc ||| 2 ^ k) (acc + 2 ^ k) =
          (acc + 2 ^ k) + (ks.map (2 ^ ·)).sum := by
        rw [h]
        simp only [List.map_cons, List.sum_cons]
        omega
      rw [← hor] at h'
      obtain ⟨hnd, hbits⟩ := ih (acc ||| 2 ^ k) h'
      refine ⟨List.nodup_cons.mpr ⟨?_, hnd⟩, ?_⟩
      · intro hk
        have := hbits k hk
        rw [Nat.testBit_lor, Nat.testBit_two_pow_self] at this
        simp at this
      · intro j hj
        rcases List.mem_cons.mp hj with rfl | hj
        · exact hb
        · have := hbits j hj
          rw [Nat.testBit_lor] at this
          exact (Bool.or_eq_false_iff.mp this).1

/-- The distinctness certificate: if the or-fold equals the sum-fold over
the keys, the key list (and hence the permutation list) has no duplicate. -/
theorem nodup_of_cert (l : List (List Nat)) (hc : orPow (l.map permKey) = sumPow (l.map permKey)) :
    l.Nodup := by
  unfold orPow sumPow at hc
  rw [foldl_sumPow_eq] at hc
  exact ((nodup_of_orPow_foldl (l.map permKey) 0 hc).1).of_map permKey

set_option maxRecDepth 10000 in
set_option exponentiation.threshold 2000 in
theorem permute_base4_nodup : (permute [0, 1, 2, 3] : List (List Nat)).Nodup :=
  nodup_of_cert _ (by decide)

set_option maxRecDepth 10000 in
set_option exponentiation.threshold 50000 in
theorem permute_base6_nodup : (permute [0, 1, 2, 3, 4, 5] : List (List Nat)).Nodup :=
  nodup_of_cert _ (by decide)

set_option maxRecDepth 10000 in
theorem permute_base4_length : (permute [0, 1, 2, 3] : List (List Nat)).length = 24 := by
  decide

set_option maxRecDepth 10000 in
theorem permute_base6_length : (permute [0, 1, 2, 3, 4, 5] : List (List Nat)).length = 720 := by
  decide

theorem swap_map {α β : Type} (f : α → β) (l : List α) (i j : Nat) :
    swap (l.map f) i j = (swap l i j).map f := by
  unfold swap
  rw [List.getElem?_map, List.getElem?_map]
  cases l[i]? <;> cases l[j]? <;> simp [List.map_set]

theorem heapLoop_map {α β : Type} (f : α → β) (n : Nat)
    (sub : List α → List (List α) × List α) (subB : List β → List (List β) × List β)
    (hsub : ∀ w : List α, subB (w.map f) = ((sub w).1.map (List.map f), (sub w).2.map f)) :
    ∀ (i : Nat) (w : List α),
      heapLoop n subB i (w.map f) =
        ((heapLoop n sub i w).1.map (List.map f), (heapLoop n sub i w).2.map f) := by
  intro i
  induction i with
  | zero => intro w; simp [heapLoop]
  | succ i ih =>
    intro w
    show heapLoop n subB (i + 1) (w.map f) = _
    simp only [heapLoop, ih, hsub, swap_map, List.map_append]
    split <;> rfl

theorem heapPermute_map {α β : Type} (f : α → β) :
    ∀ (n : Nat) (w : List α),
      heapPermute n (w.map f) =
        ((heapPermute n w).1.map (List.map f), (heapPermute n w).2.map f) := by
  intro n
  induction n with
  | zero => intro w; simp [heapPermute]
  | succ m ih =>
    cases m with
    | zero => intro w; simp [heapPermute]
    | succ k =>
      intro w
      exact heapLoop_map f (k + 2) (heapPermute (k + 1)) (heapPermute (k + 1)) ih (k + 2) w

theorem permute_map {α β : Type} (f : α → β) (arr : List α) :
    permute (arr.map f) = (permute arr).map (List.map f) := by
  unfold permute
  rw [List.length_map, heapPermute_map]

theorem map_eq_of_inj_on {f : Nat → Card} {s : List Nat}
    (hinj : ∀ x ∈ s, ∀ y ∈ s, f x = f y → x = y) :
    ∀ (p q : List Nat), (∀ x ∈ p, x ∈ s) → (∀ x ∈ q, x ∈ s) →
      p.map f = q.map f → p = q := by
  intro p
  induction p with
  | nil =>
    intro q _ _ h
    cases q with
    | nil => rfl
    | cons b q => simp at h
  | cons a p ih =>
    intro q hp hq h
    cases q with
    | nil => simp at h
    | cons b q =>
      simp only [List.map_cons, List.cons.injEq] at h
      obtain ⟨h1, h2⟩ := h
      have hab : a = b :=
        hinj a (hp a (List.mem_cons_self _ _)) b (hq b (List.mem_cons_self _ _)) h1
      subst hab
      rw [ih q (fun x hx => hp x (List.mem_cons_of_mem _ hx))
        (fun x hx => hq x (List.mem_cons_of_mem _ hx)) h2]

theorem permute_nodup_of_base (base : List Nat) (f : Nat → Card)
    (hbnd : (permute base).Nodup)
    (hinj : ∀ x ∈ base, ∀ y ∈ base, f x = f y → x = y) :
    (permute (base.map f)).Nodup := by
  rw [permute_map]
  refine List.Nodup.map_on ?_ hbnd
  intro p hp q hq hpq
  exact map_eq_of_inj_on hinj p q
    (fun x hx => (permute_perm base p hp).subset hx)
    (fun x hx => (permute_perm base q hq).subset hx) hpq

theorem list_eq_range_map (l : List Card) :
    (List.range l.length).map (fun i => l.getD i ⟨.plus, 0⟩) = l := by
  apply List.ext_getElem
  · simp
  · intro i h1 h2
    simp only [List.getElem_map, List.getElem_range]
    rw [List.getD_eq_getElem l _ h2]

/-- Claim C4: for every hand of 4 pairwise-distinct cards, exhaustive
Arrangement Search (`permute`) yields exactly `4! = 24` pairwise-distinct
orderings, and for 6 distinct cards exactly `6! = 720`; every emitted
arrangement is a permutation of the input hand (each is an independent
snapshot of the mutable working array; in this pure embedding the emitted
lists are values, and their pairwise distinctness shows no emitted
arrangement aliases the evolving working state). -/
theorem exhaustive_permutations_c4 (h : List Card) (hnd : h.Nodup)
    (hlen : h.length = 4 ∨ h.length = 6) :
    (permute h).length = Nat.factorial h.length ∧
      (permute h).Nodup ∧ ∀ p ∈ permute h, p.Perm h := by
  have hperm : ∀ p ∈ permute h, p.Perm h := permute_perm h
  have hh : (List.range h.length).map (fun i => h.getD i ⟨.plus, 0⟩) = h :=
    list_eq_range_map h
  have hinj : ∀ x ∈ List.range h.length, ∀ y ∈ List.range h.length,
      h.getD x ⟨.plus, 0⟩ = h.getD y ⟨.plus, 0⟩ → x = y := by
    intro x hx y hy hf
    rw [List.mem_range] at hx hy
    rw [List.getD_eq_getElem h _ hx, List.getD_eq_getElem h _ hy] at hf
    exact (List.Nodup.getElem_inj_iff hnd).mp hf
  rcases hlen with hl | hl
  · have hr : List.range h.length = [0, 1, 2, 3] := by rw [hl]; rfl
    rw [hr] at hh hinj
    refine ⟨?_, ?_, hperm⟩
    · rw [hl, ← hh, permute_map, List.length_map, permute_base4_length]
      rfl
    · rw [← hh]
      exact permute_nodup_of_base _ _ permute_base4_nodup hinj
  · have hr : List.range h.length = [0, 1, 2, 3, 4, 5] := by rw [hl]; rfl
    rw [hr] at hh hinj
    refine ⟨?_, ?_, hperm⟩
    · rw [hl, ← hh, permute_map, List.length_map, permute_base6_length]
      rfl
    · rw [← hh]
      exact permute_nodup_of_base _ _ permute_base6_nodup hinj

/-- Witness for C4 at a concrete 4-card hand of pairwise-distinct cards. -/
theorem exhaustive_permutations_c4_witness :
    ((([⟨.plus, 1⟩, ⟨.minus, 2⟩, ⟨.mul, 3⟩, ⟨.div, 4⟩] : List Card)).Nodup ∧
        (([⟨.plus, 1⟩, ⟨.minus, 2⟩, ⟨.mul, 3⟩, ⟨.div, 4⟩] : List Card)).length = 4) ∧
      ((permute ([⟨.plus, 1⟩, ⟨.minus, 2⟩, ⟨.mul, 3⟩, ⟨.div, 4⟩] : List Card)).length =
          Nat.factorial (([⟨.plus, 1⟩, ⟨.minus, 2⟩, ⟨.mul, 3⟩, ⟨.div, 4⟩] : List Card)).length ∧
        (permute ([⟨.plus, 1⟩, ⟨.minus, 2⟩, ⟨.mul, 3⟩, ⟨.div, 4⟩] : List Card)).Nodup ∧
        ∀ p ∈ permute ([⟨.plus, 1⟩, ⟨.minus, 2⟩, ⟨.mul, 3⟩, ⟨.div, 4⟩] : List Card),
          p.Perm ([⟨.plus, 1⟩, ⟨.minus, 2⟩, ⟨.mul, 3⟩, ⟨.div, 4⟩] : List Card)) :=
  ⟨⟨by decide, by decide⟩,
    exhaustive_permutations_c4 ([⟨.plus, 1⟩, ⟨.minus, 2⟩, ⟨.mul, 3⟩, ⟨.div, 4⟩] : List Card)
      (by decide) (Or.inl (by decide))⟩

/-! ### Lemmas: the analyzer's answer map -/

theorem insertAnswer_property (P : ℚ × AnswerData → Prop)
    (hbump : ∀ k d, P (k, d) → P (k, { d with count := d.count + 1 })) :
    ∀ (m : List (ℚ × AnswerData)) (q : ℚ) (arr : List Card) (fd : Bool),
      (∀ p ∈ m, P p) → P (q, ⟨arr, 1, fd⟩) →
      ∀ p ∈ insertAnswer m q arr fd, P p := by
  intro m
  induction m with
  | nil =>
    intro q arr fd _ hnew p hp
    simp only [insertAnswer, List.mem_singleton] at hp
    subst hp
    exact hnew
  | cons kd m ih =>
    intro q arr fd hm hnew p hp
    obtain ⟨k, d⟩ := kd
    unfold insertAnswer at hp
    by_cases hk : k = q
    · rw [if_pos hk] at hp
      rcases List.mem_cons.mp hp with rfl | hp
      · exact hbump k d (hm (k, d) (List.mem_cons_self _ _))
      · exact hm p (List.mem_cons_of_mem _ hp)
    · rw [if_neg hk] at hp
      rcases List.mem_cons.mp hp with rfl | hp
      · exact hm (k, d) (List.mem_cons_self _ _)
      · exact ih q arr fd (fun p hp => hm p (List.mem_cons_of_mem _ hp)) hnew p hp

theorem insertAnswer_map_fst (m : List (ℚ × AnswerData)) (q : ℚ) (arr : List Card) (fd : Bool) :
    (insertAnswer m q arr fd).map Prod.fst =
      if q ∈ m.map Prod.fst then m.map Prod.fst else m.map Prod.fst ++ [q] := by
  induction m with
  | nil => simp [insertAnswer]
  | cons kd m ih =>
    obtain ⟨k, d⟩ := kd
    unfold insertAnswer
    by_cases hk : k = q
    · subst hk
      rw [if_pos rfl]
      simp
    · rw [if_neg hk]
      simp only [List.map_cons, ih]
      by_cases hq : q ∈ m.map Prod.fst
      · rw [if_pos hq, if_pos (by simp [hq])]
      · rw [if_neg hq, if_neg (by simp [hq, Ne.symm hk])]
        simp

theorem analyzeStep_eq (m : List (ℚ × AnswerData)) (arr : List Card) :
    analyzeStep m arr =
      if isValidAnswer (evaluate arr).answer = true then
        match (evaluate arr).answer with
        | some q => insertAnswer m q arr (evaluate arr).floatDetected
        | none => m
      else m := rfl

theorem buildAnswerMap_invariant (arrs : List (List Card)) :
    ∀ p ∈ buildAnswerMap arrs,
      isValidAnswer (some p.1) = true ∧ 1 ≤ p.2.count ∧
        p.2.arrangement ∈ arrs ∧ (evaluate p.2.arrangement).answer = some p.1 := by
  unfold buildAnswerMap
  refine List.foldlRecOn (motive := fun m => ∀ p ∈ m,
    isValidAnswer (some p.1) = true ∧ 1 ≤ p.2.count ∧
      p.2.arrangement ∈ arrs ∧ (evaluate p.2.arrangement).answer = some p.1)
    arrs analyzeStep [] (by simp) ?_
  intro m hm arr harr p hp
  rw [analyzeStep_eq] at hp
  by_cases hv : isValidAnswer (evaluate arr).answer = true
  · rw [if_pos hv] at hp
    cases hans : (evaluate arr).answer with
    | none => rw [hans] at hv; exact absurd hv (by simp [isValidAnswer])
    | some q =>
      rw [hans] at hp
      refine insertAnswer_property _ ?_ m q arr (evaluate arr).floatDetected hm ?_ p hp
      · intro k d hd
        exact ⟨hd.1, Nat.succ_le_succ (Nat.zero_le _), hd.2.2⟩
      · exact ⟨hans ▸ hv, Nat.le_refl 1, harr, hans⟩
  · rw [if_neg hv] at hp
    exact hm p hp

theorem buildAnswerMap_keys_nodup (arrs : List (List Card)) :
    ((buildAnswerMap arrs).map Prod.fst).Nodup := by
  unfold buildAnswerMap
  refine List.foldlRecOn (motive := fun m => (m.map Prod.fst).Nodup)
    arrs analyzeStep [] (by simp) ?_
  intro m hm arr _
  rw [analyzeStep_eq]
  by_cases hv : isValidAnswer (evaluate arr).answer = true
  · rw [if_pos hv]
    cases hans : (evaluate arr).answer with
    | none => exact hm
    | some q =>
      rw [insertAnswer_map_fst]
      by_cases hq : q ∈ m.map Prod.fst
      · rw [if_pos hq]; exact hm
      · rw [if_neg hq]
        refine List.Nodup.append hm (by simp) ?_
        intro x hx hx'
        simp only [List.mem_singleton] at hx'
        subst hx'
        exact hq hx
  · rw [if_neg hv]
    exact hm

theorem mem_keys_insertAnswer (m : List (ℚ × AnswerData)) (q q' : ℚ) (arr : List Card)
    (fd : Bool) (h : q' ∈ m.map Prod.fst ∨ q' = q) :
    q' ∈ (insertAnswer m q arr fd).map Prod.fst := by
  rw [insertAnswer_map_fst]
  rcases h with h | rfl
  · split
    · exact h
    · exact List.mem_append_left _ h
  · split
    · assumption
    · exact List.mem_append_right _ (List.mem_singleton.mpr rfl)

theorem analyzeStep_keys_mono (m : List (ℚ × AnswerData)) (arr : List Card) (q : ℚ)
    (h : q ∈ m.map Prod.fst) : q ∈ (analyzeStep m arr).map Prod.fst := by
  rw [analyzeStep_eq]
  split
  · cases hans : (evaluate arr).answer with
    | none => exact h
    | some q' => exact mem_keys_insertAnswer m q' q arr _ (Or.inl h)
  · exact h

theorem mem_keys_buildAnswerMap_of (arrs : List (List Card)) (q : ℚ) :
    (∃ arr ∈ arrs, (evaluate arr).answer = some q ∧
      isValidAnswer (evaluate arr).answer = true) →
    q ∈ (buildAnswerMap arrs).map Prod.fst := by
  unfold buildAnswerMap
  suffices h : ∀ (m : List (ℚ × AnswerData)),
      ((∃ arr ∈ arrs, (evaluate arr).answer = some q ∧
        isValidAnswer (evaluate arr).answer = true) ∨ q ∈ m.map Prod.fst) →
      q ∈ (arrs.foldl analyzeStep m).map Prod.fst by
    intro hex
    exact h [] (Or.inl hex)
  induction arrs with
  | nil =>
    intro m h
    rcases h with ⟨arr, harr, _⟩ | h
    · simp at harr
    · simpa using h
  | cons a arrs ih =>
    intro m h
    rw [List.foldl_cons]
    apply ih
    rcases h with ⟨arr, harr, hq, hv⟩ | h
    · rcases List.mem_cons.mp harr with rfl | harr
      · right
        rw [analyzeStep_eq, if_pos hv]
        cases hans : (evaluate arr).answer with
        | none => rw [hans] at hq; exact absurd hq (by simp)
        | some q' =>
          rw [hans] at hq
          injection hq with hq
          exact mem_keys_insertAnswer m q' q arr _ (Or.inr hq.symm)
      · exact Or.inl ⟨arr, harr, hq, hv⟩
    · exact Or.inr (analyzeStep_keys_mono m a q h)

theorem lookupAnswer_mem (m : List (ℚ × AnswerData)) (q : ℚ) (d : AnswerData)
    (h : lookupAnswer m q = some d) : (q, d) ∈ m := by
  induction m with
  | nil => simp [lookupAnswer] at h
  | cons kd m ih =>
    obtain ⟨k, d'⟩ := kd
    unfold lookupAnswer at h
    by_cases hk : k = q
    · rw [if_pos hk] at h
      injection h with h
      subst h hk
      exact List.mem_cons_self _ _
    · rw [if_neg hk] at h
      exact List.mem_cons_of_mem _ (ih h)

theorem lookupAnswer_isSome (m : List (ℚ × AnswerData)) (q : ℚ)
    (h : q ∈ m.map Prod.fst) : ∃ d, lookupAnswer m q = some d := by
  induction m with
  | nil => simp at h
  | cons kd m ih =>
    obtain ⟨k, d'⟩ := kd
    unfold lookupAnswer
    by_cases hk : k = q
    · exact ⟨d', by rw [if_pos hk]⟩
    · rw [if_neg hk]
      apply ih
      simp only [List.map_cons, List.mem_cons] at h
      rcases h with h | h
      · exact absurd h.symm hk
      · exact h

/-! ### Lemmas: the sorted answer keys and the valid result -/

theorem headD_eq_getElem (l : List ℚ) (d : ℚ) (h : 0 < l.length) : l.headD d = l[0] := by
  cases l with
  | nil => simp at h
  | cons a t => rfl

theorem getLastD_eq_getElem (l : List ℚ) (d : ℚ) (h : 0 < l.length) :
    l.getLastD d = l[l.length - 1] := by
  rw [List.getLastD_eq_getLast?, List.getLast?_eq_getElem?, List.getElem?_eq_getElem (by omega)]
  rfl

theorem isValidAnswer_some_iff (q : ℚ) :
    isValidAnswer (some q) = true ↔ 0 ≤ q ∧ q.den = 1 := by
  simp [isValidAnswer]

theorem validPuzzleResult_facts (useEx : Bool) (tp : Nat) (m : List (ℚ × AnswerData))
    (P : List Card → Prop) (hm2 : 2 ≤ m.length) (hnd : (m.map Prod.fst).Nodup)
    (hQ : ∀ p ∈ m, isValidAnswer (some p.1) = true ∧ 1 ≤ p.2.count ∧
      P p.2.arrangement ∧ (evaluate p.2.arrangement).answer = some p.1) :
    ((validPuzzleResult useEx tp m).dusk.result ≤ (validPuzzleResult useEx tp m).dawn.result ∧
      (validPuzzleResult useEx tp m).dusk.result ≠ (validPuzzleResult useEx tp m).dawn.result) ∧
    (isValidAnswer (some (validPuzzleResult useEx tp m).dusk.result) = true ∧
      isValidAnswer (some (validPuzzleResult useEx tp m).dawn.result) = true) ∧
    (P (validPuzzleResult useEx tp m).dusk.arrangement ∧
      (evaluate (validPuzzleResult useEx tp m).dusk.arrangement).answer =
        some (validPuzzleResult useEx tp m).dusk.result ∧
      1 ≤ (validPuzzleResult useEx tp m).dusk.permutationCount) ∧
    (P (validPuzzleResult useEx tp m).dawn.arrangement ∧
      (evaluate (validPuzzleResult useEx tp m).dawn.arrangement).answer =
        some (validPuzzleResult useEx tp m).dawn.result ∧
      1 ≤ (validPuzzleResult useEx tp m).dawn.permutationCount) := by
  have hperm : ((m.map Prod.fst).insertionSort (fun a b => a ≤ b)).Perm (m.map Prod.fst) :=
    List.perm_insertionSort _ _
  have hlen : 2 ≤ ((m.map Prod.fst).insertionSort (fun a b => a ≤ b)).length := by
    rw [hperm.length_eq, List.length_map]
    exact hm2
  have hsort : ((m.map Prod.fst).insertionSort (fun a b => a ≤ b)).Sorted (fun a b => a ≤ b) :=
    List.sorted_insertionSort _ _
  have hnds : ((m.map Prod.fst).insertionSort (fun a b => a ≤ b)).Nodup :=
    hperm.nodup_iff.mpr hnd
  have h0 : 0 < ((m.map Prod.fst).insertionSort (fun a b => a ≤ b)).length := by omega
  have hlast : ((m.map Prod.fst).insertionSort (fun a b => a ≤ b)).length - 1 <
      ((m.map Prod.fst).insertionSort (fun a b => a ≤ b)).length := by omega
  have hlowg : ((m.map Prod.fst).insertionSort (fun a b => a ≤ b)).headD 0 =
      ((m.map Prod.fst).insertionSort (fun a b => a ≤ b))[0] :=
    headD_eq_getElem _ 0 h0
  have hhighg : ((m.map Prod.fst).insertionSort (fun a b => a ≤ b)).getLastD 0 =
      ((m.map Prod.fst).insertionSort (fun a b => a ≤ b))[
        ((m.map Prod.fst).insertionSort (fun a b => a ≤ b)).length - 1] :=
    getLastD_eq_getElem _ 0 h0
  have hle : ((m.map Prod.fst).insertionSort (fun a b => a ≤ b)).headD 0 ≤
      ((m.map Prod.fst).insertionSort (fun a b => a ≤ b)).getLastD 0 := by
    rw [hlowg, hhighg]
    exact List.pairwise_iff_getElem.mp hsort 0 _ h0 hlast (by omega)
  have hne : ((m.map Prod.fst).insertionSort (fun a b => a ≤ b)).headD 0 ≠
      ((m.map Prod.fst).insertionSort (fun a b => a ≤ b)).getLastD 0 := by
    rw [hlowg, hhighg]
    intro he
    have := hnds.getElem_inj_iff.mp he
    omega
  have hmem0 : ((m.map Prod.fst).insertionSort (fun a b => a ≤ b)).headD 0 ∈
      m.map Prod.fst := by
    rw [hlowg]
    exact hperm.subset (List.getElem_mem h0)
  have hmem1 : ((m.map Prod.fst).insertionSort (fun a b => a ≤ b)).getLastD 0 ∈
      m.map Prod.fst := by
    rw [hhighg]
    exact hperm.subset (List.getElem_mem hlast)
  obtain ⟨dl, hdl⟩ := lookupAnswer_isSome m _ hmem0
  obtain ⟨dh, hdh⟩ := lookupAnswer_isSome m _ hmem1
  have hdlm := hQ _ (lookupAnswer_mem m _ dl hdl)
  have hdhm := hQ _ (lookupAnswer_mem m _ dh hdh)
  have edr : (validPuzzleResult useEx tp m).dusk.result =
      ((m.map Prod.fst).insertionSort (fun a b => a ≤ b)).headD 0 := rfl
  have ehr : (validPuzzleResult useEx tp m).dawn.result =
      ((m.map Prod.fst).insertionSort (fun a b => a ≤ b)).getLastD 0 := rfl
  have eda : (validPuzzleResult useEx tp m).dusk.arrangement =
      ((lookupAnswer m (((m.map Prod.fst).insertionSort (fun a b => a ≤ b)).headD 0)).getD
        ⟨[], 0, false⟩).arrangement := rfl
  have eha : (validPuzzleResult useEx tp m).dawn.arrangement =
      ((lookupAnswer m (((m.map Prod.fst).insertionSort (fun a b => a ≤ b)).getLastD 0)).getD
        ⟨[], 0, false⟩).arrangement := rfl
  have edc : (validPuzzleResult useEx tp m).dusk.permutationCount =
      ((lookupAnswer m (((m.map Prod.fst).insertionSort (fun a b => a ≤ b)).headD 0)).getD
        ⟨[], 0, false⟩).count := rfl
  have ehc : (validPuzzleResult useEx tp m).dawn.permutationCount =
      ((lookupAnswer m (((m.map Prod.fst).insertionSort (fun a b => a ≤ b)).getLastD 0)).getD
        ⟨[], 0, false⟩).count := rfl
  rw [edr, ehr, eda, eha, edc, ehc, hdl, hdh]
  simp only [Option.getD_some]
  exact ⟨⟨hle, hne⟩, ⟨hdlm.1, hdhm.1⟩,
    ⟨hdlm.2.2.1, hdlm.2.2.2, hdlm.2.1⟩, ⟨hdhm.2.2.1, hdhm.2.2.2, hdhm.2.1⟩⟩

/-! ### Shape of `generateAnswers` -/

theorem generateAnswers_valid_shape (r : RandSource) (t : Nat) (cards : List Card)
    (h : (generateAnswers r t cards).1.hasValidAnswers = true) :
    cards.length ≠ 0 ∧ 2 ≤ (buildAnswerMap (searchPermutations r cards t).1).length := by
  by_cases h0 : cards.length = 0
  · exfalso
    unfold generateAnswers at h
    rw [if_pos h0] at h
    simp [createInvalidResult] at h
  · refine ⟨h0, ?_⟩
    by_contra hlt
    simp only [generateAnswers] at h
    rw [if_neg h0, if_pos (by omega)] at h
    simp [createInvalidResult] at h

theorem generateAnswers_eq_validPuzzleResult (r : RandSource) (t : Nat) (cards : List Card)
    (h0 : cards.length ≠ 0)
    (hm : 2 ≤ (buildAnswerMap (searchPermutations r cards t).1).length) :
    (generateAnswers r t cards).1 =
      validPuzzleResult (decide (cards.length ≤ EXHAUSTIVE_THRESHOLD))
        (searchPermutations r cards t).1.length
        (buildAnswerMap (searchPermutations r cards t).1) := by
  simp only [generateAnswers]
  rw [if_neg h0, if_neg (by omega)]

theorem searchPermutations_mem_perm (r : RandSource) (cards : List Card) (t : Nat) :
    ∀ p ∈ (searchPermutations r cards t).1, p.Perm cards := by
  unfold searchPermutations
  split
  · exact permute_perm cards
  · intro p hp
    unfold generateSampledPermutations at hp
    exact sampleLoop_mem_perm r cards SAMPLE_SIZE _ [] [] t (by simp) p hp

/-! ### Claim C1: Dusk strictly below Dawn, both valid -/

/-- Claim C1: whenever `generateAnswers` reports `hasValidAnswers = true`,
`dusk.result ≤ dawn.result` with equality excluded, and both results are
non-negative integers (non-negative rationals with denominator 1). -/
theorem dusk_le_dawn_c1 (r : RandSource) (t : Nat) (cards : List Card)
    (h : (generateAnswers r t cards).1.hasValidAnswers = true) :
    ((generateAnswers r t cards).1.dusk.result ≤ (generateAnswers r t cards).1.dawn.result ∧
      (generateAnswers r t cards).1.dusk.result ≠ (generateAnswers r t cards).1.dawn.result) ∧
    (0 ≤ (generateAnswers r t cards).1.dusk.result ∧
      (generateAnswers r t cards).1.dusk.result.den = 1) ∧
    (0 ≤ (generateAnswers r t cards).1.dawn.result ∧
      (generateAnswers r t cards).1.dawn.result.den = 1) := by
  obtain ⟨h0, hm⟩ := generateAnswers_valid_shape r t cards h
  rw [generateAnswers_eq_validPuzzleResult r t cards h0 hm]
  obtain ⟨⟨hle, hne⟩, ⟨hvl, hvh⟩, -, -⟩ :=
    validPuzzleResult_facts (decide (cards.length ≤ EXHAUSTIVE_THRESHOLD))
      (searchPermutations r cards t).1.length (buildAnswerMap (searchPermutations r cards t).1)
      (fun _ => True) hm (buildAnswerMap_keys_nodup _)
      (fun p hp => by
        obtain ⟨h1, h2, h3, h4⟩ := buildAnswerMap_invariant _ p hp
        exact ⟨h1, h2, trivial, h4⟩)
  exact ⟨⟨hle, hne⟩, (isValidAnswer_some_iff _).mp hvl, (isValidAnswer_some_iff _).mp hvh⟩

set_option exponentiation.threshold 50000 in
set_option maxRecDepth 10000 in
/-- Witness for C1 at the concrete 2-card hand `+5, -2` (answers 3 and 7). -/
theorem dusk_le_dawn_c1_witness :
    (generateAnswers (fun _ => 0) 0 [⟨.plus, 5⟩, ⟨.minus, 2⟩]).1.hasValidAnswers = true ∧
      (((generateAnswers (fun _ => 0) 0 [⟨.plus, 5⟩, ⟨.minus, 2⟩]).1.dusk.result ≤
          (generateAnswers (fun _ => 0) 0 [⟨.plus, 5⟩, ⟨.minus, 2⟩]).1.dawn.result ∧
        (generateAnswers (fun _ => 0) 0 [⟨.plus, 5⟩, ⟨.minus, 2⟩]).1.dusk.result ≠
          (generateAnswers (fun _ => 0) 0 [⟨.plus, 5⟩, ⟨.minus, 2⟩]).1.dawn.result) ∧
      (0 ≤ (generateAnswers (fun _ => 0) 0 [⟨.plus, 5⟩, ⟨.minus, 2⟩]).1.dusk.result ∧
        (generateAnswers (fun _ => 0) 0 [⟨.plus, 5⟩, ⟨.minus, 2⟩]).1.dusk.result.den = 1) ∧
      (0 ≤ (generateAnswers (fun _ => 0) 0 [⟨.plus, 5⟩, ⟨.minus, 2⟩]).1.dawn.result ∧
        (generateAnswers (fun _ => 0) 0 [⟨.plus, 5⟩, ⟨.minus, 2⟩]).1.dawn.result.den = 1)) :=
  ⟨by with_unfolding_all rfl,
    dusk_le_dawn_c1 (fun _ => 0) 0 [⟨.plus, 5⟩, ⟨.minus, 2⟩] (by with_unfolding_all rfl)⟩

/-! ### Claim C9: targets witnessed by their stored arrangements -/

/-- Claim C9: whenever `generateAnswers` reports `hasValidAnswers = true`,
each Target's stored arrangement is a reordering of the input hand that
evaluates exactly to the Target's result, and each `permutationCount` is at
least 1. -/
theorem targets_witnessed_c9 (r : RandSource) (t : Nat) (cards : List Card)
    (h : (generateAnswers r t cards).1.hasValidAnswers = true) :
    ((generateAnswers r t cards).1.dusk.arrangement.Perm cards ∧
      (evaluate (generateAnswers r t cards).1.dusk.arrangement).answer =
        some (generateAnswers r t cards).1.dusk.result ∧
      1 ≤ (generateAnswers r t cards).1.dusk.permutationCount) ∧
    ((generateAnswers r t cards).1.dawn.arrangement.Perm cards ∧
      (evaluate (generateAnswers r t cards).1.dawn.arrangement).answer =
        some (generateAnswers r t cards).1.dawn.result ∧
      1 ≤ (generateAnswers r t cards).1.dawn.permutationCount) := by
  obtain ⟨h0, hm⟩ := generateAnswers_valid_shape r t cards h
  rw [generateAnswers_eq_validPuzzleResult r t cards h0 hm]
  obtain ⟨-, -, ⟨hdp, hde, hdc⟩, ⟨hhp, hhe, hhc⟩⟩ :=
    validPuzzleResult_facts (decide (cards.length ≤ EXHAUSTIVE_THRESHOLD))
      (searchPermutations r cards t).1.length (buildAnswerMap (searchPermutations r cards t).1)
      (fun arr => arr.Perm cards) hm (buildAnswerMap_keys_nodup _)
      (fun p hp => by
        obtain ⟨h1, h2, h3, h4⟩ := buildAnswerMap_invariant _ p hp
        exact ⟨h1, h2, searchPermutations_mem_perm r cards t _ h3, h4⟩)
  exact ⟨⟨hdp, hde, hdc⟩, ⟨hhp, hhe, hhc⟩⟩

set_option exponentiation.threshold 50000 in
set_option maxRecDepth 10000 in
/-- Witness for C9 at the concrete 2-card hand `+7, -3` (answers 4 and 10). -/
theorem targets_witnessed_c9_witness :
    (generateAnswers (fun _ => 0) 0 [⟨.plus, 7⟩, ⟨.minus, 3⟩]).1.hasValidAnswers = true ∧
      (((generateAnswers (fun _ => 0) 0 [⟨.plus, 7⟩, ⟨.minus, 3⟩]).1.dusk.arrangement.Perm
          [⟨.plus, 7⟩, ⟨.minus, 3⟩] ∧
        (evaluate (generateAnswers (fun _ => 0) 0 [⟨.plus, 7⟩, ⟨.minus, 3⟩]).1.dusk.arrangement).answer =
          some (generateAnswers (fun _ => 0) 0 [⟨.plus, 7⟩, ⟨.minus, 3⟩]).1.dusk.result ∧
        1 ≤ (generateAnswers (fun _ => 0) 0 [⟨.plus, 7⟩, ⟨.minus, 3⟩]).1.dusk.permutationCount) ∧
      ((generateAnswers (fun _ => 0) 0 [⟨.plus, 7⟩, ⟨.minus, 3⟩]).1.dawn.arrangement.Perm
          [⟨.plus, 7⟩, ⟨.minus, 3⟩] ∧
        (evaluate (generateAnswers (fun _ => 0) 0 [⟨.plus, 7⟩, ⟨.minus, 3⟩]).1.dawn.arrangement).answer =
          some (generateAnswers (fun _ => 0) 0 [⟨.plus, 7⟩, ⟨.minus, 3⟩]).1.dawn.result ∧
        1 ≤ (generateAnswers (fun _ => 0) 0 [⟨.plus, 7⟩, ⟨.minus, 3⟩]).1.dawn.permutationCount)) :=
  ⟨by with_unfolding_all rfl,
    targets_witnessed_c9 (fun _ => 0) 0 [⟨.plus, 7⟩, ⟨.minus, 3⟩] (by with_unfolding_all rfl)⟩

/-! ### Claim C3: fewer than two distinct valid answers means invalid -/

theorem buildAnswerMap_length_eq (arrs : List (List Card)) :
    (buildAnswerMap arrs).length = (distinctValidAnswers arrs).length := by
  have h1 : (((buildAnswerMap arrs).map Prod.fst).map some).Perm (distinctValidAnswers arrs) := by
    refine (List.perm_ext_iff_of_nodup ?_ ?_).mpr ?_
    · exact (buildAnswerMap_keys_nodup arrs).map (Option.some_injective ℚ)
    · exact List.nodup_dedup _
    · intro o
      constructor
      · intro ho
        obtain ⟨q, hq, rfl⟩ := List.mem_map.mp ho
        obtain ⟨p, hp, rfl⟩ := List.mem_map.mp hq
        obtain ⟨h1, _, h3, h4⟩ := buildAnswerMap_invariant arrs p hp
        rw [distinctValidAnswers, List.mem_dedup, List.mem_filter]
        exact ⟨List.mem_map.mpr ⟨p.2.arrangement, h3, h4⟩, h1⟩
      · intro ho
        rw [distinctValidAnswers, List.mem_dedup, List.mem_filter] at ho
        obtain ⟨homap, hov⟩ := ho
        obtain ⟨arr, harr, rfl⟩ := List.mem_map.mp homap
        cases hans : (evaluate arr).answer with
        | none => rw [hans] at hov; exact absurd hov (by simp [isValidAnswer])
        | some q =>
          refine List.mem_map.mpr ⟨q, ?_, rfl⟩
          exact mem_keys_buildAnswerMap_of arrs q ⟨arr, harr, hans, hans ▸ hov⟩
  have h2 := h1.length_eq
  simpa using h2

/-- Claim C3: for every hand (including the empty hand) and every random
source, if fewer than 2 distinct valid answer values arise over the examined
arrangements, `generateAnswers` returns the invalid `PuzzleResult` (all
flags false, zero counts, empty Targets). -/
theorem sparse_invalid_c3 (r : RandSource) (t : Nat) (cards : List Card)
    (h : (distinctValidAnswers (searchPermutations r cards t).1).length < 2) :
    (generateAnswers r t cards).1 = createInvalidResult := by
  by_cases h0 : cards.length = 0
  · unfold generateAnswers
    rw [if_pos h0]
  · have hm : (buildAnswerMap (searchPermutations r cards t).1).length < 2 := by
      rw [buildAnswerMap_length_eq]
      exact h
    simp only [generateAnswers]
    rw [if_neg h0, if_pos hm]

set_option exponentiation.threshold 50000 in
set_option maxRecDepth 10000 in
/-- Witness for C3 at the hand `+1, +2`, whose two arrangements both
evaluate to the single valid value 3. -/
theorem sparse_invalid_c3_witness :
    (distinctValidAnswers (searchPermutations (fun _ => 0) [⟨.plus, 1⟩, ⟨.plus, 2⟩] 0).1).length < 2 ∧
      (generateAnswers (fun _ => 0) 0 [⟨.plus, 1⟩, ⟨.plus, 2⟩]).1 = createInvalidResult :=
  ⟨of_decide_eq_true (by with_unfolding_all rfl),
    sparse_invalid_c3 (fun _ => 0) 0 [⟨.plus, 1⟩, ⟨.plus, 2⟩]
      (of_decide_eq_true (by with_unfolding_all rfl))⟩

/-! ### Claim C10: drawn hands are pairwise distinct -/

theorem perm_getElem_cons_eraseIdx {α : Type} (l : List α) :
    ∀ (i : Nat) (h : i < l.length), l.Perm (l.get ⟨i, h⟩ :: l.eraseIdx i) := by
  induction l with
  | nil => intro i h; simp at h
  | cons a t ih =>
    intro i h
    cases i with
    | zero => simp
    | succ j =>
      have hj : j < t.length := by simpa using h
      exact ((ih j hj).cons a).trans (List.Perm.swap _ _ _)

theorem mem_generateCardsForOperator (op : Operator) (range : CardRange) (c : Card)
    (h : c ∈ generateCardsForOperator op range) : c.operator = op := by
  obtain ⟨k, -, rfl⟩ := List.mem_map.mp h
  rfl

theorem generateCardsForOperator_nodup (op : Operator) (range : CardRange) :
    (generateCardsForOperator op range).Nodup := by
  rw [generateCardsForOperator]
  refine (List.nodup_range _).map_on ?_
  intro k _ k' _ he
  have : range.min + (k : Int) = range.min + (k' : Int) := congrArg Card.value he
  omega

theorem generateDeck_nodup (ranges : CardRanges) : (generateDeck ranges).Nodup := by
  have h1 := generateCardsForOperator_nodup .plus ranges.plus
  have h2 := generateCardsForOperator_nodup .minus ranges.minus
  have h3 := generateCardsForOperator_nodup .mul ranges.multiply
  have h4 := generateCardsForOperator_nodup .div ranges.divide
  rw [generateDeck]
  refine List.Nodup.append (List.Nodup.append (List.Nodup.append h1 h2 ?_) h3 ?_) h4 ?_
  · intro c hc hc'
    have := mem_generateCardsForOperator _ _ c hc
    have := mem_generateCardsForOperator _ _ c hc'
    simp_all
  · intro c hc hc'
    have := mem_generateCardsForOperator _ _ c hc'
    rcases List.mem_append.mp hc with h | h <;>
      have := mem_generateCardsForOperator _ _ c h <;> simp_all
  · intro c hc hc'
    have := mem_generateCardsForOperator _ _ c hc'
    rcases List.mem_append.mp hc with h | h
    · rcases List.mem_append.mp h with h' | h' <;>
        have := mem_generateCardsForOperator _ _ c h' <;> simp_all
    · have := mem_generateCardsForOperator _ _ c h; simp_all

theorem drawLoop_nodup (r : RandSource) :
    ∀ (count : Nat) (deck hand : List Card) (t : Nat),
      (hand ++ deck).Nodup → (drawLoop r count deck hand t).1.Nodup := by
  intro count
  induction count with
  | zero => intro deck hand t h; exact (List.nodup_append.mp h).1
  | succ n ih =>
    intro deck hand t h
    rw [drawLoop]
    by_cases h0 : deck.length = 0
    · rw [if_pos h0]; exact (List.nodup_append.mp h).1
    · rw [if_neg h0]
      have hidx : r t % deck.length < deck.length := Nat.mod_lt _ (Nat.pos_of_ne_zero h0)
      show (drawLoop r n (deck.eraseIdx (r t % deck.length))
        (hand ++ [deck.getD (r t % deck.length) ⟨.plus, 0⟩]) (t + 1)).1.Nodup
      apply ih
      have hgd : deck.getD (r t % deck.length) ⟨.plus, 0⟩ = deck.get ⟨_, hidx⟩ := by
        rw [List.getD_eq_getElem deck _ hidx]; rfl
      rw [hgd, List.append_assoc]
      have hperm : (hand ++ deck).Perm
          (hand ++ (deck.get ⟨_, hidx⟩ :: deck.eraseIdx (r t % deck.length))) :=
        List.Perm.append_left hand (perm_getElem_cons_eraseIdx deck _ hidx)
      simpa using hperm.nodup_iff.mp h

/-- Claim C10: every hand returned by `generatePuzzle` — for every card count,
every card-range configuration, and every random source — has pairwise-distinct
cards: the synthesized deck holds each (operator, value) pair exactly once and
the draw loop splices drawn cards out of the remaining deck. -/
theorem generatePuzzle_nodup_c10 (r : RandSource) (t : Nat) (cardCount : Nat)
    (ranges : CardRanges) : (generatePuzzle r t cardCount ranges).1.Nodup := by
  apply drawLoop_nodup
  simpa using generateDeck_nodup ranges

/-! ### Claim C2: the zero guarantee and relaxation of `findGoodPuzzle` -/

theorem fgpLoop_hasZero (r : RandSource) (o : FindGoodPuzzleOptions)
    (hz : o.requireZero = true) :
    ∀ (fuel attempts : Nat) (th : ℚ) (relaxed : Bool) (t : Nat),
      (fgpLoop r o fuel attempts th relaxed t).result.hasZero = true ∨
        (fgpLoop r o fuel attempts th relaxed t).relaxedQuality = true := by
  intro fuel
  induction fuel with
  | zero => intro attempts th relaxed t; right; rfl
  | succ fuel ih =>
    intro attempts th relaxed t
    simp only [fgpLoop]
    generalize (generateAnswers r (generatePuzzle r t o.cardCount o.ranges).2
      (generatePuzzle r t o.cardCount o.ranges).1) = a
    generalize (generatePuzzle r t o.cardCount o.ranges) = g
    generalize (if attempts + 1 > o.maxAttempts ∧ relaxed = false then
      RELAXED_QUALITY_THRESHOLD else th) = th1
    generalize (if attempts + 1 > o.maxAttempts ∧ relaxed = false then true
      else relaxed) = rel1
    split
    · exact ih _ _ _ _
    split
    · exact ih _ _ _ _
    split
    · exact ih _ _ _ _
    split
    · exact ih _ _ _ _
    rename_i hn1 hn2 hn3 hn4
    refine Or.inl ?_
    by_contra hc
    rw [Bool.not_eq_true] at hc
    exact hn3 ⟨hz, hc⟩

theorem fgpLoop_relaxed_attempts (r : RandSource) (o : FindGoodPuzzleOptions)
    (hm : 1 ≤ o.maxAttempts) :
    ∀ (fuel attempts : Nat) (th : ℚ) (relaxed : Bool) (t : Nat),
      fuel + attempts = 2 * o.maxAttempts →
      (relaxed = true → o.maxAttempts < attempts) →
      (fgpLoop r o fuel attempts th relaxed t).relaxedQuality = true →
        o.maxAttempts < (fgpLoop r o fuel attempts th relaxed t).attempts := by
  intro fuel
  induction fuel with
  | zero =>
    intro attempts th relaxed t hfe hrel hret
    show o.maxAttempts < attempts
    omega
  | succ fuel ih =>
    intro attempts th relaxed t hfe hrel
    simp only [fgpLoop]
    generalize (generateAnswers r (generatePuzzle r t o.cardCount o.ranges).2
      (generatePuzzle r t o.cardCount o.ranges).1) = a
    generalize (generatePuzzle r t o.cardCount o.ranges) = g
    generalize (if attempts + 1 > o.maxAttempts ∧ relaxed = false then
      RELAXED_QUALITY_THRESHOLD else th) = th1
    generalize hr1 : (if attempts + 1 > o.maxAttempts ∧ relaxed = false then true
      else relaxed) = rel1
    have hinv : rel1 = true → o.maxAttempts < attempts + 1 := by
      intro h
      rcases Decidable.em (attempts + 1 > o.maxAttempts ∧ relaxed = false) with hc | hc
      · obtain ⟨h1, -⟩ := hc
        omega
      · rw [if_neg hc] at hr1
        have := hrel (hr1.trans h)
        omega
    split
    · exact ih _ _ _ _ (by omega) hinv
    split
    · exact ih _ _ _ _ (by omega) hinv
    split
    · exact ih _ _ _ _ (by omega) hinv
    split
    · exact ih _ _ _ _ (by omega) hinv
    exact hinv

/-- Counterexample to C2 as stated: with `maxAttempts = 0` the search loop
never runs, so the fallback reports `relaxedQuality = true` with a returned
attempt count of 0, which does not exceed the configured `maxAttempts`. -/
theorem relaxed_without_excess_attempts_c2 :
    (findGoodPuzzle (fun _ => 0) ⟨2, true, true, 0, DEFAULT_CARD_RANGES⟩ 0).relaxedQuality =
      true ∧
    (findGoodPuzzle (fun _ => 0) ⟨2, true, true, 0, DEFAULT_CARD_RANGES⟩ 0).attempts = 0 ∧
    ¬((⟨2, true, true, 0, DEFAULT_CARD_RANGES⟩ : FindGoodPuzzleOptions).maxAttempts <
      (findGoodPuzzle (fun _ => 0) ⟨2, true, true, 0, DEFAULT_CARD_RANGES⟩ 0).attempts) :=
  ⟨rfl, rfl, Nat.lt_irrefl 0⟩

/-- Claim C2 (amended with `1 ≤ maxAttempts`): with `requireZero = true`, every
`findGoodPuzzle` return either has `hasZero = true` or reports relaxation, and
a return reporting relaxation carries an attempt count exceeding the configured
`maxAttempts`. -/
theorem zero_guarantee_c2 (r : RandSource) (o : FindGoodPuzzleOptions) (t : Nat)
    (hz : o.requireZero = true) (hm : 1 ≤ o.maxAttempts) :
    ((findGoodPuzzle r o t).result.hasZero = true ∨
      (findGoodPuzzle r o t).relaxedQuality = true) ∧
    ((findGoodPuzzle r o t).relaxedQuality = true →
      o.maxAttempts < (findGoodPuzzle r o t).attempts) := by
  constructor
  · exact fgpLoop_hasZero r o hz _ _ _ _ _
  · exact fgpLoop_relaxed_attempts r o hm (o.maxAttempts * 2) 0 QUALITY_THRESHOLD false t
      (by omega) (fun h => absurd h Bool.false_ne_true)

/-- Witness for C2 at `maxAttempts = 1`, `requireZero = true`, two cards. -/
theorem zero_guarantee_c2_witness :
    ((⟨2, true, true, 1, DEFAULT_CARD_RANGES⟩ : FindGoodPuzzleOptions).requireZero = true ∧
      1 ≤ (⟨2, true, true, 1, DEFAULT_CARD_RANGES⟩ : FindGoodPuzzleOptions).maxAttempts) ∧
    (((findGoodPuzzle (fun _ => 0) ⟨2, true, true, 1, DEFAULT_CARD_RANGES⟩ 0).result.hasZero =
        true ∨
      (findGoodPuzzle (fun _ => 0) ⟨2, true, true, 1, DEFAULT_CARD_RANGES⟩ 0).relaxedQuality =
        true) ∧
    ((findGoodPuzzle (fun _ => 0) ⟨2, true, true, 1, DEFAULT_CARD_RANGES⟩ 0).relaxedQuality =
        true →
      (⟨2, true, true, 1, DEFAULT_CARD_RANGES⟩ : FindGoodPuzzleOptions).maxAttempts <
        (findGoodPuzzle (fun _ => 0) ⟨2, true, true, 1, DEFAULT_CARD_RANGES⟩ 0).attempts)) :=
  ⟨⟨rfl, by decide⟩,
    zero_guarantee_c2 (fun _ => 0) ⟨2, true, true, 1, DEFAULT_CARD_RANGES⟩ 0 rfl (by decide)⟩

end ZeroRush
